import Mathlib

/-!
# Class-file parser: a shallow embedding of `parser.go`

The Go parser reads a JVM class file front to back from a `bufio.Reader`.
Here the byte source is the list of bytes that are still unread, and each
method of `Parser` becomes a function from that list to a `Res`: the value (or
the error) together with the bytes left unread. `io.ReadFull` and `ReadByte`
read on until they have their bytes or the source ends, so they depend on the
bytes only; the single `Read` of `readCaffbabe` also depends on how many bytes
the source delivers at once, which is an argument of `readCaffbabe` and of
`ParseFrom`. `Parse` is `ParseFrom` on a byte sequence held in memory.

Machine integers are natural numbers; `uint16` arithmetic that can wrap is
written with an explicit `% 65536`.
-/

set_option autoImplicit false

namespace ClassfileParser

/-! ## Data model -/

/-- One octet of the input. -/
abbrev Byte := Fin 256

/-- The unread part of the input, next byte first. -/
abbrev Stream := List Byte

/-- The error values built in `parser.go`, one constructor per message. -/
inductive Error where
  -- "Cannot read 4 bytes. got %d" (readCaffbabe)
  | cannotRead4 (got : Nat)
  -- "magic is wrong" (readCaffbabe)
  | magicWrong
  -- "Cannot read %d bytes. got %d bytes" (readBytes)
  | cannotRead (size got : Nat)
  -- io.EOF, returned by ReadByte at the end of the input (readUint8)
  | eof
  -- "Unsupported tags for constant pool. tag:%d" (readConstantPool)
  | unsupportedTag (tag : Nat)
  -- "attribute name index is invalid: index:%d" (readAttribute)
  | invalidAttributeNameIndex (index : Nat)
  deriving DecidableEq, Repr

/-- The errors that report an exhausted input (the `UnexpectedEof` kind). -/
def Error.isUnexpectedEof : Error → Bool
  | .cannotRead4 _ => true
  | .cannotRead _ _ => true
  | .eof => true
  | _ => false

/-- Outcome of running a reader: a value or an error, each with the bytes left
unread; `fuel` is the outcome of a loop whose iteration budget ran out. -/
inductive Res (α : Type) where
  | ok (a : α) (rest : Stream)
  | err (e : Error) (rest : Stream)
  | fuel
  deriving DecidableEq, Repr

/-- A reader over the byte source. -/
def Parser (α : Type) : Type := Stream → Res α

instance : Monad Parser where
  pure a := fun s => .ok a s
  bind f g := fun s =>
    match f s with
    | .ok a r => g a r
    | .err e r => .err e r
    | .fuel => .fuel

/-- Fail with `e` (Go: `return ..., e`). -/
def fail {α : Type} (e : Error) : Parser α := fun s => .err e s

/-- The seventeen record shapes of the constant pool, fields as in the Go
structs the tag switch fills. -/
inductive Constant where
  | Class (NameIndex : Nat)
  | Fieldref (ClassIndex NameAndTypeIndex : Nat)
  | Methodref (ClassIndex NameAndTypeIndex : Nat)
  | InterfaceMethodref (ClassIndex NameAndTypeIndex : Nat)
  | String (StringIndex : Nat)
  | Integer (Bytes : Nat)
  | Float (Bytes : Nat)
  | Long (HighBytes LowBytes : Nat)
  | Double (HighBytes LowBytes : Nat)
  | NameAndType (NameIndex DescriptorIndex : Nat)
  | Utf8 (Bytes : List Byte)
  | MethodHandle (ReferenceKind ReferenceIndex : Nat)
  | MethodType (DescriptorIndex : Nat)
  | Dynamic (BootstrapMethodAttrIndex NameAndTypeIndex : Nat)
  | InvokeDynamic (BootstrapMethodAttrIndex NameAndTypeIndex : Nat)
  | Module (NameIndex : Nat)
  | Package (NameIndex : Nat)
  deriving DecidableEq, Repr

/-- The pool: a slice of interface values, `none` being a nil slot. -/
structure ConstantPool where
  Constants : List (Option Constant)
  deriving DecidableEq, Repr

/-- Modelled from the spec: the `Attribute` type is declared outside
`parser.go`; the spec describes it as a name resolved through the constant
pool plus an opaque payload. -/
structure Attribute where
  Name : List Byte
  Payload : List Byte
  deriving DecidableEq, Repr

structure Field where
  AccessFlags : Nat
  NameIndex : Nat
  DescriptorIndex : Nat
  Attributes : List (Option Attribute)
  deriving DecidableEq, Repr

structure Method where
  AccessFlags : Nat
  NameIndex : Nat
  DescriptorIndex : Nat
  Attributes : List (Option Attribute)
  deriving DecidableEq, Repr

/-- The decoded class (`type Classfile struct`). A nil `Attribute` interface
value is `none`. -/
structure Classfile where
  MajorVersion : Nat
  MinorVersion : Nat
  ConstantPool : ConstantPool
  AccessFlags : Nat
  ThisClass : Nat
  SuperClass : Nat
  Interfaces : List Nat
  Fields : List Field
  Methods : List Method
  Attribute : List (Option Attribute)
  deriving DecidableEq, Repr

/-- Go's `&Classfile{}`: every field at its zero value. -/
def Classfile.empty : Classfile :=
  { MajorVersion := 0, MinorVersion := 0, ConstantPool := ⟨[]⟩, AccessFlags := 0,
    ThisClass := 0, SuperClass := 0, Interfaces := [], Fields := [], Methods := [],
    Attribute := [] }

/-! ## Byte cursor -/

/-- Big-endian value of a byte string (`binary.BigEndian.Uint16`, `Uint32`). -/
def beNat (bs : List Byte) : Nat :=
  bs.foldl (fun acc b => acc * 256 + b.val) 0

/-- `readBytes`: `io.ReadFull` fills the buffer with what is left, up to
`size` bytes; anything short of `size` is an error. -/
def readBytes (size : Nat) : Parser (List Byte) := fun s =>
  let bs := s.take size
  if bs.length ≠ size then .err (.cannotRead size bs.length) (s.drop size)
  else .ok bs (s.drop size)

/-- `readUint8`: `ReadByte`, which returns `io.EOF` at the end of the input. -/
def readUint8 : Parser Byte := fun s =>
  match s with
  | [] => .err .eof []
  | b :: rest => .ok b rest

def readUint16 : Parser Nat := do
  let bs ← readBytes 2
  pure (beNat bs)

def readUint32 : Parser Nat := do
  let bs ← readBytes 4
  pure (beNat bs)

/-! ## Header -/

/-- The marker `CA FE BA BE`. -/
def magic : List Byte := [0xCA, 0xFE, 0xBA, 0xBE]

/-- `readCaffbabe`: one `Read` of the `bufio.Reader` into a 4-byte buffer. Such
a `Read` takes its bytes from at most one read of the underlying source, so it
returns at most the `first` bytes which that read delivers, even when more
bytes follow; `first` is a property of the source (all the bytes for a byte
sequence held in memory, possibly fewer for a pipe or a network stream). -/
def readCaffbabe (first : Nat) : Parser Unit := fun s =>
  let bs := s.take (min 4 first)
  if bs.length < 4 then .err (.cannotRead4 bs.length) (s.drop bs.length)
  else if bs ≠ magic then .err .magicWrong (s.drop bs.length)
  else .ok () (s.drop bs.length)

/-- `readCaffbabe` on a byte sequence held in memory: the first read of the
source delivers all the bytes. -/
def readCaffbabeFull : Parser Unit := fun s => readCaffbabe s.length s

def readMinorVersion (c : Classfile) : Parser Classfile := do
  let v ← readUint16
  pure { c with MinorVersion := v }

def readMajorVersion (c : Classfile) : Parser Classfile := do
  let v ← readUint16
  pure { c with MajorVersion := v }

/-! ## Constant pool -/

/-- The field reads of one case of the tag switch in `readConstantPool`, in
source order; the `default` case fails with the tag. The Go code stores the
(still empty) record in the pool before these reads and fills it through the
pointer; the record is built here once its fields are read, which gives the
same pool whenever the reads succeed. -/
def readConstant (tag : Nat) : Parser Constant :=
  match tag with
  | 7 => do
    let nameIndex ← readUint16
    pure (.Class nameIndex)
  | 9 => do
    let classIndex ← readUint16
    let nameAndTypeIndex ← readUint16
    pure (.Fieldref classIndex nameAndTypeIndex)
  | 10 => do
    let classIndex ← readUint16
    let nameAndTypeIndex ← readUint16
    pure (.Methodref classIndex nameAndTypeIndex)
  | 11 => do
    let classIndex ← readUint16
    let nameAndTypeIndex ← readUint16
    pure (.InterfaceMethodref classIndex nameAndTypeIndex)
  | 8 => do
    let stringIndex ← readUint16
    pure (.String stringIndex)
  | 3 => do
    let bytes ← readUint32
    pure (.Integer bytes)
  | 4 => do
    let bytes ← readUint32
    pure (.Float bytes)
  | 5 => do
    let highBytes ← readUint32
    let lowBytes ← readUint32
    pure (.Long highBytes lowBytes)
  | 6 => do
    let highBytes ← readUint32
    let lowBytes ← readUint32
    pure (.Double highBytes lowBytes)
  | 12 => do
    let nameIndex ← readUint16
    let descriptorIndex ← readUint16
    pure (.NameAndType nameIndex descriptorIndex)
  | 1 => do
    let count ← readUint16
    let bytes ← readBytes count
    pure (.Utf8 bytes)
  | 15 => do
    let referenceKind ← readUint8
    let referenceIndex ← readUint16
    pure (.MethodHandle referenceKind.val referenceIndex)
  | 16 => do
    let descriptorIndex ← readUint16
    pure (.MethodType descriptorIndex)
  | 17 => do
    let bootstrapMethodAttrIndex ← readUint16
    let nameAndTypeIndex ← readUint16
    pure (.Dynamic bootstrapMethodAttrIndex nameAndTypeIndex)
  | 18 => do
    let bootstrapMethodAttrIndex ← readUint16
    let nameAndTypeIndex ← readUint16
    pure (.InvokeDynamic bootstrapMethodAttrIndex nameAndTypeIndex)
  | 19 => do
    let nameIndex ← readUint16
    pure (.Module nameIndex)
  | 20 => do
    let nameIndex ← readUint16
    pure (.Package nameIndex)
  | _ => fail (.unsupportedTag tag)

/-- The slot index after the switch: cases 5 and 6 execute `i++` (on a
`uint16`), the other cases leave `i` alone. -/
def slotAfter (tag i : Nat) : Nat :=
  if tag = 5 ∨ tag = 6 then (i + 1) % 65536 else i

/-- The `for ; i < count-1; i++` loop of `readConstantPool`, `n` being
`count-1`. The state is the slot index `i` and the pool; the loop returns its
final state. A failed read of the tag byte leaves the function with `nil`
(line 123), that is with success. The first argument bounds the number of
iterations. -/
def cpLoop (n : Nat) : Nat → Nat → List (Option Constant) →
    Parser (Nat × List (Option Constant))
  | 0, _, _ => fun _ => .fuel
  | fuel + 1, i, cp => fun s =>
    if i < n then
      match readUint8 s with
      | .ok tag s1 =>
        match readConstant tag.val s1 with
        | .ok k s2 =>
          cpLoop n fuel ((slotAfter tag.val i + 1) % 65536) (cp.set i (some k)) s2
        | .err e s2 => .err e s2
        | .fuel => .fuel
      | .err _ s1 => .ok (i, cp) s1
      | .fuel => .fuel
    else .ok (i, cp) s

/-- The records the loop of `readConstantPool` dispatches and stores, each
with the slot index it is stored at, in the order they are read. -/
def cpRecords (n : Nat) : Nat → Nat → Stream → List (Nat × Constant)
  | 0, _, _ => []
  | fuel + 1, i, s =>
    if i < n then
      match readUint8 s with
      | .ok tag s1 =>
        match readConstant tag.val s1 with
        | .ok k s2 => (i, k) :: cpRecords n fuel ((slotAfter tag.val i + 1) % 65536) s2
        | _ => []
      | _ => []
    else []

/-- The state in which `readConstantPool` leaves its loop: the final slot
index and the pool. Every iteration that continues has read a tag byte, so a
budget of one more than the number of unread bytes is never exhausted. -/
def readConstantPoolState : Parser (Nat × List (Option Constant)) := do
  let count ← readUint16
  let n := (count + 65535) % 65536
  fun s => cpLoop n (s.length + 1) 0 (List.replicate n none) s

/-- `readConstantPool`: `count-1` is computed on `uint16`. -/
def readConstantPool (c : Classfile) : Parser Classfile := do
  let st ← readConstantPoolState
  pure { c with ConstantPool := ⟨st.2⟩ }

/-- The records `readConstantPool` dispatches on the input `s`. -/
def readConstantPoolRecords (s : Stream) : List (Nat × Constant) :=
  match readUint16 s with
  | .ok count s1 => cpRecords ((count + 65535) % 65536) (s1.length + 1) 0 s1
  | _ => []

/-- Modelled from the spec: `ConstantPool.LookupUtf8` is declared outside
`parser.go`. Per the spec the pool is indexed from 1 (index 0 is never valid,
the entry with index `j` is the slot at position `j-1`), and the Utf8 lookup
is absent for an index out of range, an empty slot, or an entry of another
variant. -/
def ConstantPool.LookupUtf8 (c : ConstantPool) (index : Nat) : Option (List Byte) :=
  if index = 0 then none
  else
    match c.Constants[index - 1]? with
    | some (some (.Utf8 bytes)) => some bytes
    | _ => none

/-! ## Access flags, class references, interfaces -/

def readAccessFlag (c : Classfile) : Parser Classfile := do
  let v ← readUint16
  pure { c with AccessFlags := v }

def readThisClass (c : Classfile) : Parser Classfile := do
  let v ← readUint16
  pure { c with ThisClass := v }

def readSuperClass (c : Classfile) : Parser Classfile := do
  let v ← readUint16
  pure { c with SuperClass := v }

/-- The loop of `readInterfaces` with `n` iterations left (`n` is
`count - i`; `i` never wraps since `count` is a `uint16`). -/
def readInterfacesLoop : Nat → Classfile → Parser Classfile
  | 0, c => pure c
  | n + 1, c => do
    let interfaceIndex ← readUint16
    readInterfacesLoop n { c with Interfaces := c.Interfaces ++ [interfaceIndex] }

def readInterfaces (c : Classfile) : Parser Classfile := do
  let count ← readUint16
  readInterfacesLoop count c

/-! ## Attributes -/

/-- `readAttribute`: on success the Go code returns the nil `Attribute`. -/
def readAttribute (c : ConstantPool) : Parser (Option Attribute) := do
  let attributeNameIndex ← readUint16
  let attributeLength ← readUint32
  match c.LookupUtf8 attributeNameIndex with
  | none => fail (.invalidAttributeNameIndex attributeNameIndex)
  | some _ => do
    let _ ← readBytes attributeLength
    pure none

/-- The loop of `readAttributes` with `n` iterations left. -/
def readAttributesLoop (c : ConstantPool) :
    Nat → List (Option Attribute) → Parser (List (Option Attribute))
  | 0, as => pure as
  | n + 1, as => do
    let a ← readAttribute c
    readAttributesLoop c n (as ++ [a])

/-- `readAttributes`: `make([]Attribute, count)` is a slice of `count` nil
values, to which the loop appends. -/
def readAttributes (c : ConstantPool) : Parser (List (Option Attribute)) := do
  let count ← readUint16
  readAttributesLoop c count (List.replicate count none)

/-! ## Fields and methods -/

/-- The loop of `readFields` with `n` iterations left. The record is appended
to `c.Fields` before it is filled in the Go code; it is appended here once it
is read, which gives the same list whenever the reads succeed. -/
def readFieldsLoop : Nat → Classfile → Parser Classfile
  | 0, c => pure c
  | n + 1, c => do
    let accessFlags ← readUint16
    let nameIndex ← readUint16
    let descriptorIndex ← readUint16
    let attributes ← readAttributes c.ConstantPool
    readFieldsLoop n { c with Fields := c.Fields ++ [⟨accessFlags, nameIndex, descriptorIndex, attributes⟩] }

def readFields (c : Classfile) : Parser Classfile := do
  let count ← readUint16
  readFieldsLoop count c

/-- The loop of `readMethods` with `n` iterations left. -/
def readMethodsLoop : Nat → Classfile → Parser Classfile
  | 0, c => pure c
  | n + 1, c => do
    let accessFlags ← readUint16
    let nameIndex ← readUint16
    let descriptorIndex ← readUint16
    let attributes ← readAttributes c.ConstantPool
    readMethodsLoop n { c with Methods := c.Methods ++ [⟨accessFlags, nameIndex, descriptorIndex, attributes⟩] }

def readMethods (c : Classfile) : Parser Classfile := do
  let count ← readUint16
  readMethodsLoop count c

/-! ## Parse -/

/-- `Parse`: the stages in source order; the first error ends the decode.
The argument `first` is the number of bytes that the first read of the source
delivers (see `readCaffbabe`). -/
def ParseFrom (first : Nat) : Parser Classfile := do
  readCaffbabe first
  let c := Classfile.empty
  let c ← readMinorVersion c
  let c ← readMajorVersion c
  let c ← readConstantPool c
  let c ← readAccessFlag c
  let c ← readThisClass c
  let c ← readSuperClass c
  let c ← readInterfaces c
  let c ← readFields c
  let c ← readMethods c
  let attrs ← readAttributes c.ConstantPool
  pure { c with Attribute := attrs }

/-- `Parse` on a byte sequence held in memory: the first read of the source
delivers all the bytes. -/
def Parse : Parser Classfile := fun s => ParseFrom s.length s

/-- The stages of `Parse` that precede the field list. -/
def parseToFields : Parser Classfile := do
  readCaffbabeFull
  let c ← readMinorVersion Classfile.empty
  let c ← readMajorVersion c
  let c ← readConstantPool c
  let c ← readAccessFlag c
  let c ← readThisClass c
  let c ← readSuperClass c
  readInterfaces c

/-- The last stage of `Parse`: the attribute list of the class. -/
def parseAttributes (c : Classfile) : Parser Classfile := do
  let attrs ← readAttributes c.ConstantPool
  pure { c with Attribute := attrs }

/-- The first value a Go function returns next to its error: `none` is nil. -/
def Res.classfile {α : Type} : Res α → Option α
  | .ok a _ => some a
  | _ => none

/-- The error a Go function returns: `none` is nil. -/
def Res.error {α : Type} : Res α → Option Error
  | .err e _ => some e
  | _ => none

/-- The stages of `Parse` in the order it calls them: the header check, the
versions, the constant pool, the access flags and class references, the
interfaces, the fields, the methods, the attributes. -/
def parseStages : List (Classfile → Parser Classfile) :=
  [fun c => do readCaffbabeFull; pure c,
   readMinorVersion, readMajorVersion, readConstantPool, readAccessFlag, readThisClass,
   readSuperClass, readInterfaces, readFields, readMethods, parseAttributes]

/-- Run stages one after the other, stopping at the first that fails. -/
def runStages : List (Classfile → Parser Classfile) → Classfile → Parser Classfile
  | [], c => pure c
  | f :: fs, c => do
    let c ← f c
    runStages fs c

/-- The tags the switch of `readConstantPool` has a case for. -/
def supportedTags : List Nat :=
  [1, 3, 4, 5, 6, 7, 8, 9, 10, 11, 12, 15, 16, 17, 18, 19, 20]

/-! ## Reference encoding

The encoder below is used only to describe inputs; it is the inverse the
decoder is checked against. -/

/-- Big-endian bytes of `v`, `k` of them. -/
def beBytes : Nat → Nat → List Byte
  | 0, _ => []
  | k + 1, v => beBytes k (v / 256) ++ [Fin.ofNat v]

/-- Two bytes, big-endian. -/
def be16 (v : Nat) : List Byte := beBytes 2 v

/-- Four bytes, big-endian. -/
def be32 (v : Nat) : List Byte := beBytes 4 v

/-- The tag byte of a record. -/
def Constant.tag : Constant → Nat
  | .Utf8 _ => 1
  | .Integer _ => 3
  | .Float _ => 4
  | .Long _ _ => 5
  | .Double _ _ => 6
  | .Class _ => 7
  | .String _ => 8
  | .Fieldref _ _ => 9
  | .Methodref _ _ => 10
  | .InterfaceMethodref _ _ => 11
  | .NameAndType _ _ => 12
  | .MethodHandle _ _ => 15
  | .MethodType _ => 16
  | .Dynamic _ _ => 17
  | .InvokeDynamic _ _ => 18
  | .Module _ => 19
  | .Package _ => 20

/-- Long and Double records, the two that take two pool slots. -/
def Constant.isWide : Constant → Bool
  | .Long _ _ => true
  | .Double _ _ => true
  | _ => false

/-- The bytes of a record after its tag. -/
def Constant.payload : Constant → List Byte
  | .Utf8 bs => be16 bs.length ++ bs
  | .Integer b => be32 b
  | .Float b => be32 b
  | .Long h l => be32 h ++ be32 l
  | .Double h l => be32 h ++ be32 l
  | .Class n => be16 n
  | .String n => be16 n
  | .Fieldref a b => be16 a ++ be16 b
  | .Methodref a b => be16 a ++ be16 b
  | .InterfaceMethodref a b => be16 a ++ be16 b
  | .NameAndType a b => be16 a ++ be16 b
  | .MethodHandle k i => [Fin.ofNat k] ++ be16 i
  | .MethodType n => be16 n
  | .Dynamic a b => be16 a ++ be16 b
  | .InvokeDynamic a b => be16 a ++ be16 b
  | .Module n => be16 n
  | .Package n => be16 n

/-- Every field of the record fits its width in the file. -/
def Constant.fits : Constant → Prop
  | .Utf8 bs => bs.length < 65536
  | .Integer b => b < 4294967296
  | .Float b => b < 4294967296
  | .Long h l => h < 4294967296 ∧ l < 4294967296
  | .Double h l => h < 4294967296 ∧ l < 4294967296
  | .Class n => n < 65536
  | .String n => n < 65536
  | .Fieldref a b => a < 65536 ∧ b < 65536
  | .Methodref a b => a < 65536 ∧ b < 65536
  | .InterfaceMethodref a b => a < 65536 ∧ b < 65536
  | .NameAndType a b => a < 65536 ∧ b < 65536
  | .MethodHandle k i => k < 256 ∧ i < 65536
  | .MethodType n => n < 65536
  | .Dynamic a b => a < 65536 ∧ b < 65536
  | .InvokeDynamic a b => a < 65536 ∧ b < 65536
  | .Module n => n < 65536
  | .Package n => n < 65536

/-- A record in the file: the tag byte, then the payload. -/
def Constant.encode (k : Constant) : List Byte :=
  [Fin.ofNat k.tag] ++ k.payload

/-- The records of a pool section, one after the other. -/
def encodeConstants : List Constant → List Byte
  | [] => []
  | k :: ks => k.encode ++ encodeConstants ks

/-- The stages of `Parse` that follow the constant pool. -/
def parseTail (c : Classfile) : Parser Classfile := do
  let c ← readAccessFlag c
  let c ← readThisClass c
  let c ← readSuperClass c
  let c ← readInterfaces c
  let c ← readFields c
  let c ← readMethods c
  let attrs ← readAttributes c.ConstantPool
  pure { c with Attribute := attrs }

/-! ## Readers that do not look ahead

A reader is `Stable` when its outcome depends only on the bytes it consumes:
bytes appended to the input are left unread, and the only outcome that
appended bytes can change is an end-of-input error. -/

/-- Outcomes are preserved when bytes are appended to the input. -/
structure Stable {α : Type} (f : Parser α) : Prop where
  ok : ∀ p t a r, f p = .ok a r → f (p ++ t) = .ok a (r ++ t)
  err : ∀ p t e r, f p = .err e r →
    e.isUnexpectedEof = true ∨ f (p ++ t) = .err e (r ++ t)
  nofuel : ∀ p, f p ≠ .fuel
  suffix : ∀ p a r, f p = .ok a r → r <:+ p

/-- As `Stable`, except that a success which leaves nothing unread may change
when bytes are appended. -/
structure WeakStable {α : Type} (f : Parser α) : Prop where
  ok : ∀ p t a r, f p = .ok a r → r ≠ [] → f (p ++ t) = .ok a (r ++ t)
  err : ∀ p t e r, f p = .err e r →
    e.isUnexpectedEof = true ∨ f (p ++ t) = .err e (r ++ t)
  nofuel : ∀ p, f p ≠ .fuel
  suffix : ∀ p a r, f p = .ok a r → r <:+ p

/-- The indices the class-file format gives the entries of a pool, in order,
the first entry having index `j`: an entry that follows a Long or Double is
two further, an entry that follows any other entry is one further. The pool
of a class file starts at index 1. -/
def entryIndices : List Constant → Nat → List Nat
  | [], _ => []
  | k :: ks, j => j :: entryIndices ks (if k.isWide then j + 2 else j + 1)

/-- The Utf8 records of a pool section: tag 1, the length, the bytes. -/
def encodeUtf8s : List (List Byte) → List Byte
  | [] => []
  | u :: us => [1] ++ be16 u.length ++ u ++ encodeUtf8s us

/-- The reference encoding of a class without interfaces, fields, methods or
attributes whose pool holds the Utf8 entries `us`. -/
def encodeMinimal (minor major : Nat) (us : List (List Byte)) (access this super : Nat) :
    List Byte :=
  magic ++ be16 minor ++ be16 major ++ be16 (us.length + 1) ++ encodeUtf8s us ++
    be16 access ++ be16 this ++ be16 super ++ [0, 0, 0, 0, 0, 0, 0, 0]

/-! ## Sample inputs -/

/-- A well-formed class file: one Utf8 constant, no members. -/
def sampleClass : Stream :=
  [0xCA, 0xFE, 0xBA, 0xBE, 0, 0, 0, 0x34, 0, 2, 1, 0, 4, 84, 101, 115, 116,
    0, 0x21, 0, 1, 0, 0, 0, 0, 0, 0, 0, 0, 0, 0]

/-- The Classfile `Parse` returns for `sampleClass`. -/
def sampleClassfile : Classfile :=
  { MajorVersion := 52, MinorVersion := 0,
    ConstantPool := ⟨[some (.Utf8 [84, 101, 115, 116])]⟩,
    AccessFlags := 33, ThisClass := 1, SuperClass := 0, Interfaces := [],
    Fields := [], Methods := [], Attribute := [] }

/-- A pool section declaring one slot (count 2) that holds a Long. -/
def poolLongLast : Stream := [0, 2, 5, 0, 0, 0, 0, 0, 0, 0, 1]

/-- A pool section declaring three slots (count 4): a Long, then an empty Utf8. -/
def poolLongFirst : Stream := [0, 4, 5, 0, 0, 0, 0, 0, 0, 0, 1, 1, 0, 0]

/-- The sample class with one class attribute whose name index is 5, beyond
its pool of one entry. -/
def sampleBadAttribute : Stream :=
  sampleClass.take 29 ++ [0, 1, 0, 5, 0, 0, 0, 2, 7, 7]

/-- A pool of one Utf8 entry. -/
def samplePool : ConstantPool := ⟨[some (.Utf8 [84, 101, 115, 116])]⟩

/-- An attribute list declaring one record: name index 1, an empty payload. -/
def oneAttribute : Stream := [0, 1, 0, 1, 0, 0, 0, 0]

/-- A pool section declaring two slots (count 3) that ends after its first
record, a Class. -/
def poolCutShort : Stream := [0, 3, 7, 0, 1]

/-- The big-endian `uint16` that starts at offset `k` of `s`. -/
def uint16At (s : Stream) (k : Nat) : Nat :=
  beNat ((s.drop k).take 2)

/-- The payload lengths declared by `n` consecutive attribute records: each
record is a two-byte name index, a four-byte length and that many payload
bytes. -/
def declaredLengths : Nat → Stream → List Nat
  | 0, _ => []
  | n + 1, s =>
    match readUint16 s with
    | .ok _ s1 =>
      match readUint32 s1 with
      | .ok len s2 => len :: declaredLengths n (s2.drop len)
      | _ => []
    | _ => []

/-- An attribute list of two records with payloads of 2 and 0 bytes, followed
by one more byte. -/
def twoAttributes : Stream := [0, 2, 0, 1, 0, 0, 0, 2, 7, 7, 0, 1, 0, 0, 0, 0, 9]

/-- An interfaces section declaring two indices, 258 and 3, followed by one
more byte. -/
def twoInterfaces : Stream := [0, 2, 1, 2, 0, 3, 9]

/-- The method record with the same four values as a field record. -/
def Field.toMethod (f : Field) : Method :=
  ⟨f.AccessFlags, f.NameIndex, f.DescriptorIndex, f.Attributes⟩

/-- The reads of one iteration of the loop of `readFields`, which are also
those of one iteration of the loop of `readMethods`. -/
def readMember (cp : ConstantPool) : Parser Field := do
  let accessFlags ← readUint16
  let nameIndex ← readUint16
  let descriptorIndex ← readUint16
  let attributes ← readAttributes cp
  pure ⟨accessFlags, nameIndex, descriptorIndex, attributes⟩

/-- A field list declaring one field without attributes, followed by one
more byte. -/
def oneMember : Stream := [0, 1, 0, 1, 0, 2, 0, 3, 0, 0, 9]

/-- An attribute record: name index 1, a payload of the two bytes 7, 7. -/
def oneRecord : Stream := [0, 1, 0, 0, 0, 2, 7, 7]

/-- The slot indices of the stores `cp.Constants[i] = c` that the loop of
`readConstantPool` performs, in order: one in every iteration that reads a
tag the switch has a case for (the store comes before the field reads of the
case, so it happens even when those reads fail). -/
def cpStores (n : Nat) : Nat → Nat → Stream → List Nat
  | 0, _, _ => []
  | fuel + 1, i, s =>
    if i < n then
      match readUint8 s with
      | .ok tag s1 =>
        if tag.val ∈ supportedTags then
          i :: (match readConstant tag.val s1 with
            | .ok _ s2 => cpStores n fuel ((slotAfter tag.val i + 1) % 65536) s2
            | _ => [])
        else []
      | _ => []
    else []

/-- The stores `readConstantPool` performs on the input `s`. -/
def readConstantPoolStores (s : Stream) : List Nat :=
  match readUint16 s with
  | .ok count s1 => cpStores ((count + 65535) % 65536) (s1.length + 1) 0 s1
  | _ => []

/-- Eight bytes whose marker is `CA FE BA BF`. -/
def badMagicClass : Stream := [0xCA, 0xFE, 0xBA, 0xBF, 0, 0, 0, 52]

/-- The header `CA FE BA BE 00 00 00 34` followed by the pool section
`poolCutShort`, which ends after its first record. -/
def classCutShort : Stream := magic ++ [0, 0, 0, 52] ++ poolCutShort

/-! # Theorems -/

/-! ## Running readers -/

section Basics

variable {α β : Type}

theorem bind_apply (f : Parser α) (g : α → Parser β) (s : Stream) :
    (f >>= g) s = match f s with
      | .ok a r => g a r
      | .err e r => .err e r
      | .fuel => .fuel := rfl

theorem pure_apply (a : α) (s : Stream) : (pure a : Parser α) s = .ok a s := rfl

theorem bind_ok {f : Parser α} {g : α → Parser β} {s r : Stream} {a : α}
    (h : f s = .ok a r) : (f >>= g) s = g a r := by
  rw [bind_apply, h]

theorem bind_err {f : Parser α} {g : α → Parser β} {s r : Stream} {e : Error}
    (h : f s = .err e r) : (f >>= g) s = .err e r := by
  rw [bind_apply, h]

theorem bind_fuel {f : Parser α} {g : α → Parser β} {s : Stream}
    (h : f s = .fuel) : (f >>= g) s = .fuel := by
  rw [bind_apply, h]

/-- What a successful bind is made of. -/
theorem bind_eq_ok {f : Parser α} {g : α → Parser β} {s r : Stream} {b : β}
    (h : (f >>= g) s = .ok b r) : ∃ a r1, f s = .ok a r1 ∧ g a r1 = .ok b r := by
  rw [bind_apply] at h
  cases hf : f s with
  | ok a r1 => rw [hf] at h; exact ⟨a, r1, rfl, h⟩
  | err e r1 => rw [hf] at h; cases h
  | fuel => rw [hf] at h; cases h

/-- What a failed bind is made of. -/
theorem bind_eq_err {f : Parser α} {g : α → Parser β} {s r : Stream} {e : Error}
    (h : (f >>= g) s = .err e r) :
    f s = .err e r ∨ ∃ a r1, f s = .ok a r1 ∧ g a r1 = .err e r := by
  rw [bind_apply] at h
  cases hf : f s with
  | ok a r1 => rw [hf] at h; exact Or.inr ⟨a, r1, rfl, h⟩
  | err e1 r1 => rw [hf] at h; exact Or.inl (by simpa using h)
  | fuel => rw [hf] at h; cases h

end Basics

theorem readBytes_append (bs rest : List Byte) :
    readBytes bs.length (bs ++ rest) = .ok bs rest := by
  simp [readBytes]

theorem readBytes_of_le {size : Nat} {s : Stream} (h : size ≤ s.length) :
    readBytes size s = .ok (s.take size) (s.drop size) := by
  simp [readBytes, h]

theorem readBytes_of_lt {size : Nat} {s : Stream} (h : s.length < size) :
    readBytes size s = .err (.cannotRead size s.length) [] := by
  have h1 : min size s.length = s.length := by omega
  have h2 : s.drop size = [] := List.drop_eq_nil_of_le (by omega)
  simp [readBytes, h1, h2]
  omega

/-! ## Stable readers -/

section StableLemmas

variable {α β : Type}

theorem Stable.weak {f : Parser α} (h : Stable f) : WeakStable f :=
  ⟨fun p t a r hp _ => h.ok p t a r hp, h.err, h.nofuel, h.suffix⟩

theorem Stable.pure (a : α) : Stable (pure a : Parser α) := by
  refine ⟨?_, ?_, ?_, ?_⟩
  · intro p t b r h
    rw [pure_apply] at h ⊢
    cases h
    rfl
  · intro p t e r h
    rw [pure_apply] at h
    cases h
  · intro p h
    rw [pure_apply] at h
    cases h
  · intro p b r h
    rw [pure_apply] at h
    cases h
    exact List.suffix_refl _

theorem Stable.fail (e : Error) : Stable (fail e : Parser α) := by
  refine ⟨?_, ?_, ?_, ?_⟩
  · intro p t b r h
    cases h
  · intro p t e1 r h
    simp only [ClassfileParser.fail, Res.err.injEq] at h
    obtain ⟨rfl, rfl⟩ := h
    exact Or.inr rfl
  · intro p h
    cases h
  · intro p b r h
    cases h

theorem Stable.bind {f : Parser α} {g : α → Parser β} (hf : Stable f)
    (hg : ∀ a, Stable (g a)) : Stable (f >>= g) := by
  refine ⟨?_, ?_, ?_, ?_⟩
  · intro p t b r h
    obtain ⟨a, r1, h1, h2⟩ := bind_eq_ok h
    rw [bind_ok (hf.ok p t a r1 h1)]
    exact (hg a).ok r1 t b r h2
  · intro p t e r h
    rcases bind_eq_err h with h1 | ⟨a, r1, h1, h2⟩
    · rcases hf.err p t e r h1 with he | h3
      · exact Or.inl he
      · exact Or.inr (bind_err h3)
    · rw [bind_ok (hf.ok p t a r1 h1)]
      exact (hg a).err r1 t e r h2
  · intro p h
    rw [bind_apply] at h
    cases hfp : f p with
    | ok a r1 => rw [hfp] at h; exact (hg a).nofuel r1 h
    | err e r1 => rw [hfp] at h; cases h
    | fuel => exact hf.nofuel p hfp
  · intro p b r h
    obtain ⟨a, r1, h1, h2⟩ := bind_eq_ok h
    exact ((hg a).suffix r1 b r h2).trans (hf.suffix p a r1 h1)

/-- A stage that may succeed early at the end of the input, followed by a
stage that fails on an empty input, is stable as a whole. -/
theorem WeakStable.bind_stable {f : Parser α} {g : α → Parser β} (hf : WeakStable f)
    (hg : ∀ a, Stable (g a))
    (hnil : ∀ a, ∃ e, g a [] = .err e [] ∧ e.isUnexpectedEof = true) :
    Stable (f >>= g) := by
  refine ⟨?_, ?_, ?_, ?_⟩
  · intro p t b r h
    obtain ⟨a, r1, h1, h2⟩ := bind_eq_ok h
    have hne : r1 ≠ [] := by
      rintro rfl
      obtain ⟨e, he, _⟩ := hnil a
      rw [he] at h2
      cases h2
    rw [bind_ok (hf.ok p t a r1 h1 hne)]
    exact (hg a).ok r1 t b r h2
  · intro p t e r h
    rcases bind_eq_err h with h1 | ⟨a, r1, h1, h2⟩
    · rcases hf.err p t e r h1 with he | h3
      · exact Or.inl he
      · exact Or.inr (bind_err h3)
    · by_cases hne : r1 = []
      · subst hne
        obtain ⟨e1, he1, heof⟩ := hnil a
        rw [he1] at h2
        cases h2
        exact Or.inl heof
      · rw [bind_ok (hf.ok p t a r1 h1 hne)]
        exact (hg a).err r1 t e r h2
  · intro p h
    rw [bind_apply] at h
    cases hfp : f p with
    | ok a r1 => rw [hfp] at h; exact (hg a).nofuel r1 h
    | err e r1 => rw [hfp] at h; cases h
    | fuel => exact hf.nofuel p hfp
  · intro p b r h
    obtain ⟨a, r1, h1, h2⟩ := bind_eq_ok h
    exact ((hg a).suffix r1 b r h2).trans (hf.suffix p a r1 h1)

theorem WeakStable.bind_left {f : Parser α} {g : α → Parser β} (hf : Stable f)
    (hg : ∀ a, WeakStable (g a)) : WeakStable (f >>= g) := by
  refine ⟨?_, ?_, ?_, ?_⟩
  · intro p t b r h hne
    obtain ⟨a, r1, h1, h2⟩ := bind_eq_ok h
    rw [bind_ok (hf.ok p t a r1 h1)]
    exact (hg a).ok r1 t b r h2 hne
  · intro p t e r h
    rcases bind_eq_err h with h1 | ⟨a, r1, h1, h2⟩
    · rcases hf.err p t e r h1 with he | h3
      · exact Or.inl he
      · exact Or.inr (bind_err h3)
    · rw [bind_ok (hf.ok p t a r1 h1)]
      exact (hg a).err r1 t e r h2
  · intro p h
    rw [bind_apply] at h
    cases hfp : f p with
    | ok a r1 => rw [hfp] at h; exact (hg a).nofuel r1 h
    | err e r1 => rw [hfp] at h; cases h
    | fuel => exact hf.nofuel p hfp
  · intro p b r h
    obtain ⟨a, r1, h1, h2⟩ := bind_eq_ok h
    exact ((hg a).suffix r1 b r h2).trans (hf.suffix p a r1 h1)

end StableLemmas

theorem stable_readBytes (size : Nat) : Stable (readBytes size) := by
  refine ⟨?_, ?_, ?_, ?_⟩
  · intro p t a r h
    by_cases hle : size ≤ p.length
    · rw [readBytes_of_le hle] at h
      cases h
      rw [readBytes_of_le (by simp; omega), List.take_append_of_le_length hle,
        List.drop_append_of_le_length hle]
    · rw [readBytes_of_lt (by omega)] at h
      cases h
  · intro p t e r h
    by_cases hle : size ≤ p.length
    · rw [readBytes_of_le hle] at h
      cases h
    · rw [readBytes_of_lt (by omega)] at h
      cases h
      exact Or.inl rfl
  · intro p h
    by_cases hle : size ≤ p.length
    · rw [readBytes_of_le hle] at h
      cases h
    · rw [readBytes_of_lt (by omega)] at h
      cases h
  · intro p a r h
    by_cases hle : size ≤ p.length
    · rw [readBytes_of_le hle] at h
      cases h
      exact List.drop_suffix _ _
    · rw [readBytes_of_lt (by omega)] at h
      cases h

theorem stable_readUint8 : Stable readUint8 := by
  refine ⟨?_, ?_, ?_, ?_⟩
  · intro p t a r h
    cases p with
    | nil => cases h
    | cons b p => cases h; rfl
  · intro p t e r h
    cases p with
    | nil => cases h; exact Or.inl rfl
    | cons b p => cases h
  · intro p h
    cases p with
    | nil => cases h
    | cons b p => cases h
  · intro p a r h
    cases p with
    | nil => cases h
    | cons b p => cases h; exact List.suffix_cons _ _

theorem stable_readUint16 : Stable readUint16 :=
  Stable.bind (stable_readBytes 2) fun _ => Stable.pure _

theorem stable_readUint32 : Stable readUint32 :=
  Stable.bind (stable_readBytes 4) fun _ => Stable.pure _

/-- When the first read delivers four bytes, or all the bytes there are,
`readCaffbabe` is a read of the next four bytes. -/
theorem readCaffbabe_apply {first : Nat} {s : Stream} (h : min 4 s.length ≤ first) :
    readCaffbabe first s =
      if (s.take 4).length < 4 then .err (.cannotRead4 (s.take 4).length) (s.drop 4)
      else if s.take 4 ≠ magic then .err .magicWrong (s.drop 4)
      else .ok () (s.drop 4) := by
  have h1 : s.take (min 4 first) = s.take 4 := by
    by_cases hle : 4 ≤ s.length
    · have : min 4 first = 4 := by
        rw [Nat.min_eq_left hle] at h
        exact Nat.min_eq_left h
      rw [this]
    · rw [List.take_of_length_le (by omega), List.take_of_length_le (by omega)]
  have h2 : s.drop (s.take 4).length = s.drop 4 := by
    by_cases hle : 4 ≤ s.length
    · have : (s.take 4).length = 4 := by simp [hle]
      rw [this]
    · rw [List.drop_eq_nil_of_le (by simp; omega), List.drop_eq_nil_of_le (by omega)]
  simp only [readCaffbabe, h1, h2]

theorem readCaffbabeFull_apply (s : Stream) :
    readCaffbabeFull s =
      if (s.take 4).length < 4 then .err (.cannotRead4 (s.take 4).length) (s.drop 4)
      else if s.take 4 ≠ magic then .err .magicWrong (s.drop 4)
      else .ok () (s.drop 4) :=
  readCaffbabe_apply (Nat.min_le_right _ _)

theorem stable_readCaffbabe : Stable readCaffbabeFull := by
  have key : ∀ p t : Stream, 4 ≤ p.length →
      (p ++ t).take 4 = p.take 4 ∧ (p ++ t).drop 4 = p.drop 4 ++ t := fun p t h =>
    ⟨List.take_append_of_le_length h, List.drop_append_of_le_length h⟩
  refine ⟨?_, ?_, ?_, ?_⟩
  · intro p t a r h
    by_cases hle : 4 ≤ p.length
    · obtain ⟨h1, h2⟩ := key p t hle
      simp only [readCaffbabeFull_apply, h1, h2] at h ⊢
      split_ifs at h ⊢ with h3 h4
      cases h
      rfl
    · simp only [readCaffbabeFull_apply] at h
      rw [if_pos (by simp; omega)] at h
      cases h
  · intro p t e r h
    by_cases hle : 4 ≤ p.length
    · obtain ⟨h1, h2⟩ := key p t hle
      simp only [readCaffbabeFull_apply, h1, h2] at h ⊢
      split_ifs at h ⊢ with h3 h4
      · cases h
        exact Or.inl rfl
      · cases h
        exact Or.inr rfl
    · simp only [readCaffbabeFull_apply] at h
      rw [if_pos (by simp; omega)] at h
      cases h
      exact Or.inl rfl
  · intro p h
    simp only [readCaffbabeFull_apply] at h
    split_ifs at h
  · intro p a r h
    simp only [readCaffbabeFull_apply] at h
    split_ifs at h
    cases h
    exact List.drop_suffix _ _

theorem stable_readConstant (tag : Nat) : Stable (readConstant tag) := by
  unfold readConstant
  split <;>
    first
    | exact Stable.fail _
    | exact Stable.bind stable_readUint16 fun _ => Stable.pure _
    | exact Stable.bind stable_readUint32 fun _ => Stable.pure _
    | exact Stable.bind stable_readUint16 fun _ =>
        Stable.bind stable_readUint16 fun _ => Stable.pure _
    | exact Stable.bind stable_readUint32 fun _ =>
        Stable.bind stable_readUint32 fun _ => Stable.pure _
    | exact Stable.bind stable_readUint16 fun _ =>
        Stable.bind (stable_readBytes _) fun _ => Stable.pure _
    | exact Stable.bind stable_readUint8 fun _ =>
        Stable.bind stable_readUint16 fun _ => Stable.pure _

/-! ## The constant-pool loop -/

section CpLoop

variable (n : Nat)

theorem cpLoop_zero (i : Nat) (cp : List (Option Constant)) (s : Stream) :
    cpLoop n 0 i cp s = .fuel := rfl

theorem cpLoop_done {i : Nat} (h : ¬ i < n) (fuel : Nat) (cp : List (Option Constant))
    (s : Stream) : cpLoop n (fuel + 1) i cp s = .ok (i, cp) s := by
  simp [cpLoop, h]

theorem cpLoop_nil {i : Nat} (h : i < n) (fuel : Nat) (cp : List (Option Constant)) :
    cpLoop n (fuel + 1) i cp [] = .ok (i, cp) [] := by
  simp [cpLoop, h, readUint8]

theorem cpLoop_cons_ok {i : Nat} (h : i < n) (fuel : Nat) (cp : List (Option Constant))
    {b : Byte} {s1 s2 : Stream} {k : Constant} (hk : readConstant b.val s1 = .ok k s2) :
    cpLoop n (fuel + 1) i cp (b :: s1) =
      cpLoop n fuel ((slotAfter b.val i + 1) % 65536) (cp.set i (some k)) s2 := by
  simp [cpLoop, h, readUint8, hk]

theorem cpLoop_cons_err {i : Nat} (h : i < n) (fuel : Nat) (cp : List (Option Constant))
    {b : Byte} {s1 s2 : Stream} {e : Error} (hk : readConstant b.val s1 = .err e s2) :
    cpLoop n (fuel + 1) i cp (b :: s1) = .err e s2 := by
  simp [cpLoop, h, readUint8, hk]

/-- Case analysis on one iteration of the loop. -/
theorem cpLoop_cases (fuel i : Nat) (cp : List (Option Constant)) (s : Stream) :
    (¬ i < n ∧ cpLoop n (fuel + 1) i cp s = .ok (i, cp) s) ∨
    (i < n ∧ s = [] ∧ cpLoop n (fuel + 1) i cp s = .ok (i, cp) []) ∨
    (i < n ∧ ∃ b s1 e s2, s = b :: s1 ∧ readConstant b.val s1 = .err e s2 ∧
      cpLoop n (fuel + 1) i cp s = .err e s2) ∨
    (i < n ∧ ∃ b s1 k s2, s = b :: s1 ∧ readConstant b.val s1 = .ok k s2 ∧
      cpLoop n (fuel + 1) i cp s =
        cpLoop n fuel ((slotAfter b.val i + 1) % 65536) (cp.set i (some k)) s2) := by
  by_cases h : i < n
  · cases s with
    | nil => exact Or.inr (Or.inl ⟨h, rfl, cpLoop_nil n h fuel cp⟩)
    | cons b s1 =>
      cases hk : readConstant b.val s1 with
      | ok k s2 =>
        exact Or.inr (Or.inr (Or.inr ⟨h, b, s1, k, s2, rfl, hk, cpLoop_cons_ok n h fuel cp hk⟩))
      | err e s2 =>
        exact Or.inr (Or.inr (Or.inl ⟨h, b, s1, e, s2, rfl, hk, cpLoop_cons_err n h fuel cp hk⟩))
      | fuel => exact absurd hk ((stable_readConstant b.val).nofuel s1)
  · exact Or.inl ⟨h, cpLoop_done n h fuel cp s⟩

/-- A budget larger than the number of unread bytes is never exhausted. -/
theorem cpLoop_nofuel : ∀ (fuel i : Nat) (cp : List (Option Constant)) (s : Stream),
    s.length < fuel → cpLoop n fuel i cp s ≠ .fuel := by
  intro fuel
  induction fuel with
  | zero => intro i cp s h; omega
  | succ fuel ih =>
    intro i cp s h
    rcases cpLoop_cases n fuel i cp s with ⟨_, h1⟩ | ⟨_, _, h1⟩ | ⟨_, b, s1, e, s2, _, _, h1⟩ |
      ⟨_, b, s1, k, s2, hs, hk, h1⟩
    · rw [h1]; exact fun h => by cases h
    · rw [h1]; exact fun h => by cases h
    · rw [h1]; exact fun h => by cases h
    · rw [h1]
      apply ih
      have := ((stable_readConstant b.val).suffix s1 k s2 hk).length_le
      subst hs
      simp at h
      omega

/-- Once the loop ends within its budget, a larger budget changes nothing. -/
theorem cpLoop_fuel_succ : ∀ (fuel i : Nat) (cp : List (Option Constant)) (s : Stream),
    cpLoop n fuel i cp s ≠ .fuel → cpLoop n (fuel + 1) i cp s = cpLoop n fuel i cp s := by
  intro fuel
  induction fuel with
  | zero => intro i cp s h; exact absurd (cpLoop_zero n i cp s) h
  | succ fuel ih =>
    intro i cp s h
    rcases cpLoop_cases n fuel i cp s with ⟨hi, h1⟩ | ⟨hi, hs, h1⟩ |
      ⟨hi, b, s1, e, s2, hs, hk, h1⟩ | ⟨hi, b, s1, k, s2, hs, hk, h1⟩
    · rw [h1, cpLoop_done n hi]
    · rw [h1, hs, cpLoop_nil n hi]
    · rw [h1, hs, cpLoop_cons_err n hi _ cp hk]
    · rw [h1] at h ⊢
      rw [hs, cpLoop_cons_ok n hi _ cp hk]
      exact ih _ _ _ h

theorem cpLoop_fuel_le {fuel fuel1 : Nat} (hle : fuel ≤ fuel1) (i : Nat)
    (cp : List (Option Constant)) (s : Stream) (h : cpLoop n fuel i cp s ≠ .fuel) :
    cpLoop n fuel1 i cp s = cpLoop n fuel i cp s := by
  induction hle with
  | refl => rfl
  | step _ ih => rw [cpLoop_fuel_succ n _ i cp s (by rw [ih]; exact h), ih]

/-- The loop run with any sufficient budget. -/
theorem cpLoop_fuel_eq {fuel : Nat} (i : Nat) (cp : List (Option Constant)) (s : Stream)
    (h : s.length < fuel) : cpLoop n fuel i cp s = cpLoop n (s.length + 1) i cp s :=
  cpLoop_fuel_le n h i cp s (cpLoop_nofuel n _ i cp s (Nat.lt_succ_self _))

theorem cpLoop_ok_append : ∀ (fuel i : Nat) (cp : List (Option Constant)) (p t : Stream)
    (a : Nat × List (Option Constant)) (r : Stream),
    cpLoop n fuel i cp p = .ok a r → r ≠ [] → cpLoop n fuel i cp (p ++ t) = .ok a (r ++ t) := by
  intro fuel
  induction fuel with
  | zero => intro i cp p t a r h; cases h
  | succ fuel ih =>
    intro i cp p t a r h hne
    rcases cpLoop_cases n fuel i cp p with ⟨hi, h1⟩ | ⟨hi, hs, h1⟩ |
      ⟨hi, b, s1, e, s2, hs, hk, h1⟩ | ⟨hi, b, s1, k, s2, hs, hk, h1⟩
    · rw [h1] at h
      cases h
      exact cpLoop_done n hi fuel cp _
    · rw [h1] at h
      cases h
      exact absurd rfl hne
    · rw [h1] at h
      cases h
    · rw [h1] at h
      subst hs
      have hk1 := (stable_readConstant b.val).ok s1 t k s2 hk
      rw [List.cons_append, cpLoop_cons_ok n hi fuel cp hk1]
      exact ih _ _ _ _ _ _ h hne

theorem cpLoop_err_append : ∀ (fuel i : Nat) (cp : List (Option Constant)) (p t : Stream)
    (e : Error) (r : Stream),
    cpLoop n fuel i cp p = .err e r →
      e.isUnexpectedEof = true ∨ cpLoop n fuel i cp (p ++ t) = .err e (r ++ t) := by
  intro fuel
  induction fuel with
  | zero => intro i cp p t e r h; cases h
  | succ fuel ih =>
    intro i cp p t e r h
    rcases cpLoop_cases n fuel i cp p with ⟨hi, h1⟩ | ⟨hi, hs, h1⟩ |
      ⟨hi, b, s1, e1, s2, hs, hk, h1⟩ | ⟨hi, b, s1, k, s2, hs, hk, h1⟩
    · rw [h1] at h
      cases h
    · rw [h1] at h
      cases h
    · rw [h1] at h
      cases h
      subst hs
      rcases (stable_readConstant b.val).err s1 t e r hk with he | hk1
      · exact Or.inl he
      · exact Or.inr (by rw [List.cons_append, cpLoop_cons_err n hi fuel cp hk1])
    · rw [h1] at h
      subst hs
      have hk1 := (stable_readConstant b.val).ok s1 t k s2 hk
      rw [List.cons_append, cpLoop_cons_ok n hi fuel cp hk1]
      exact ih _ _ _ _ _ _ h

theorem cpLoop_suffix : ∀ (fuel i : Nat) (cp : List (Option Constant)) (p : Stream)
    (a : Nat × List (Option Constant)) (r : Stream),
    cpLoop n fuel i cp p = .ok a r → r <:+ p := by
  intro fuel
  induction fuel with
  | zero => intro i cp p a r h; cases h
  | succ fuel ih =>
    intro i cp p a r h
    rcases cpLoop_cases n fuel i cp p with ⟨hi, h1⟩ | ⟨hi, hs, h1⟩ |
      ⟨hi, b, s1, e1, s2, hs, hk, h1⟩ | ⟨hi, b, s1, k, s2, hs, hk, h1⟩
    · rw [h1] at h
      cases h
      exact List.suffix_refl _
    · rw [h1] at h
      cases h
      exact List.nil_suffix
    · rw [h1] at h
      cases h
    · rw [h1] at h
      subst hs
      exact ((ih _ _ _ _ _ h).trans ((stable_readConstant b.val).suffix s1 k s2 hk)).trans
        (List.suffix_cons _ _)

end CpLoop

/-! ## Stability of the stages -/

theorem weakStable_cpLoop (n i : Nat) (cp : List (Option Constant)) :
    WeakStable (fun s => cpLoop n (s.length + 1) i cp s) := by
  refine ⟨?_, ?_, ?_, ?_⟩
  · intro p t a r h hne
    have h1 := cpLoop_ok_append n _ i cp p t a r h hne
    have h2 : (p ++ t).length < (p ++ t).length + 1 := Nat.lt_succ_self _
    show cpLoop n ((p ++ t).length + 1) i cp (p ++ t) = _
    rw [cpLoop_fuel_le n (by simp : p.length + 1 ≤ (p ++ t).length + 1) i cp (p ++ t)
      (by rw [h1]; exact fun h => by cases h), h1]
  · intro p t e r h
    rcases cpLoop_err_append n _ i cp p t e r h with he | h1
    · exact Or.inl he
    · refine Or.inr ?_
      show cpLoop n ((p ++ t).length + 1) i cp (p ++ t) = _
      rw [cpLoop_fuel_le n (by simp : p.length + 1 ≤ (p ++ t).length + 1) i cp (p ++ t)
        (by rw [h1]; exact fun h => by cases h), h1]
  · intro p
    exact cpLoop_nofuel n _ i cp p (Nat.lt_succ_self _)
  · intro p a r h
    exact cpLoop_suffix n _ i cp p a r h

theorem weakStable_readConstantPoolState : WeakStable readConstantPoolState :=
  WeakStable.bind_left stable_readUint16 fun _ => weakStable_cpLoop _ _ _

theorem weakStable_readConstantPool (c : Classfile) : WeakStable (readConstantPool c) := by
  have hp : ∀ st : Nat × List (Option Constant),
      WeakStable (pure { c with ConstantPool := ⟨st.2⟩ } : Parser Classfile) :=
    fun st => (Stable.pure _).weak
  have hs := weakStable_readConstantPoolState
  refine ⟨?_, ?_, ?_, ?_⟩
  · intro p t a r h hne
    obtain ⟨st, r1, h1, h2⟩ := bind_eq_ok h
    cases h2
    exact (bind_ok (hs.ok p t st r h1 hne)).trans rfl
  · intro p t e r h
    rcases bind_eq_err h with h1 | ⟨st, r1, h1, h2⟩
    · rcases hs.err p t e r h1 with he | h3
      · exact Or.inl he
      · exact Or.inr (bind_err h3)
    · cases h2
  · intro p h
    unfold readConstantPool at h
    rw [bind_apply] at h
    cases hfp : readConstantPoolState p with
    | ok a r1 => rw [hfp] at h; cases h
    | err e r1 => rw [hfp] at h; cases h
    | fuel => exact hs.nofuel p hfp
  · intro p a r h
    obtain ⟨st, r1, h1, h2⟩ := bind_eq_ok h
    cases h2
    exact hs.suffix p st r h1

theorem stable_readMinorVersion (c : Classfile) : Stable (readMinorVersion c) :=
  Stable.bind stable_readUint16 fun _ => Stable.pure _

theorem stable_readMajorVersion (c : Classfile) : Stable (readMajorVersion c) :=
  Stable.bind stable_readUint16 fun _ => Stable.pure _

theorem stable_readAccessFlag (c : Classfile) : Stable (readAccessFlag c) :=
  Stable.bind stable_readUint16 fun _ => Stable.pure _

theorem stable_readThisClass (c : Classfile) : Stable (readThisClass c) :=
  Stable.bind stable_readUint16 fun _ => Stable.pure _

theorem stable_readSuperClass (c : Classfile) : Stable (readSuperClass c) :=
  Stable.bind stable_readUint16 fun _ => Stable.pure _

theorem stable_readInterfacesLoop : ∀ (n : Nat) (c : Classfile),
    Stable (readInterfacesLoop n c)
  | 0, _ => Stable.pure _
  | n + 1, _ => Stable.bind stable_readUint16 fun _ => stable_readInterfacesLoop n _

theorem stable_readInterfaces (c : Classfile) : Stable (readInterfaces c) :=
  Stable.bind stable_readUint16 fun _ => stable_readInterfacesLoop _ _

theorem stable_readAttribute (c : ConstantPool) : Stable (readAttribute c) := by
  refine Stable.bind stable_readUint16 fun idx => Stable.bind stable_readUint32 fun len => ?_
  cases h : c.LookupUtf8 idx with
  | none => exact Stable.fail _
  | some u => exact Stable.bind (stable_readBytes _) fun _ => Stable.pure _

theorem stable_readAttributesLoop (c : ConstantPool) : ∀ (n : Nat)
    (as : List (Option Attribute)), Stable (readAttributesLoop c n as)
  | 0, _ => Stable.pure _
  | n + 1, _ => Stable.bind (stable_readAttribute c) fun _ => stable_readAttributesLoop c n _

theorem stable_readAttributes (c : ConstantPool) : Stable (readAttributes c) :=
  Stable.bind stable_readUint16 fun _ => stable_readAttributesLoop c _ _

theorem stable_readFieldsLoop : ∀ (n : Nat) (c : Classfile), Stable (readFieldsLoop n c)
  | 0, _ => Stable.pure _
  | n + 1, c =>
    Stable.bind stable_readUint16 fun _ => Stable.bind stable_readUint16 fun _ =>
      Stable.bind stable_readUint16 fun _ =>
        Stable.bind (stable_readAttributes c.ConstantPool) fun _ => stable_readFieldsLoop n _

theorem stable_readFields (c : Classfile) : Stable (readFields c) :=
  Stable.bind stable_readUint16 fun _ => stable_readFieldsLoop _ _

theorem stable_readMethodsLoop : ∀ (n : Nat) (c : Classfile), Stable (readMethodsLoop n c)
  | 0, _ => Stable.pure _
  | n + 1, c =>
    Stable.bind stable_readUint16 fun _ => Stable.bind stable_readUint16 fun _ =>
      Stable.bind stable_readUint16 fun _ =>
        Stable.bind (stable_readAttributes c.ConstantPool) fun _ => stable_readMethodsLoop n _

theorem stable_readMethods (c : Classfile) : Stable (readMethods c) :=
  Stable.bind stable_readUint16 fun _ => stable_readMethodsLoop _ _

theorem Parse_def : Parse = (do
    readCaffbabeFull
    let c := Classfile.empty
    let c ← readMinorVersion c
    let c ← readMajorVersion c
    let c ← readConstantPool c
    let c ← readAccessFlag c
    let c ← readThisClass c
    let c ← readSuperClass c
    let c ← readInterfaces c
    let c ← readFields c
    let c ← readMethods c
    let attrs ← readAttributes c.ConstantPool
    pure { c with Attribute := attrs }) := rfl

theorem Parse_eq : Parse = (do
    readCaffbabeFull
    let c ← readMinorVersion Classfile.empty
    let c ← readMajorVersion c
    let c ← readConstantPool c
    parseTail c) := rfl

theorem stable_parseTail (c : Classfile) : Stable (parseTail c) :=
  Stable.bind (stable_readAccessFlag _) fun _ =>
  Stable.bind (stable_readThisClass _) fun _ =>
  Stable.bind (stable_readSuperClass _) fun _ =>
  Stable.bind (stable_readInterfaces _) fun _ =>
  Stable.bind (stable_readFields _) fun _ =>
  Stable.bind (stable_readMethods _) fun _ =>
  Stable.bind (stable_readAttributes _) fun _ => Stable.pure _

theorem parseTail_nil (c : Classfile) : parseTail c [] = .err (.cannotRead 2 0) [] := rfl

theorem stable_Parse : Stable Parse := by
  rw [Parse_eq]
  refine Stable.bind stable_readCaffbabe fun _ =>
    Stable.bind (stable_readMinorVersion _) fun _ =>
    Stable.bind (stable_readMajorVersion _) fun c => ?_
  exact WeakStable.bind_stable (weakStable_readConstantPool c) stable_parseTail
    fun a => ⟨_, parseTail_nil a, rfl⟩

/-! ## Truncated input -/

/-- C1: when `Parse` succeeds on `b` and consumes all of it, `Parse` on any
proper prefix of `b` fails with an end-of-input error; it returns no
Classfile. -/
theorem Parse_truncated (b : Stream) (c : Classfile) (h : Parse b = .ok c [])
    (k : Nat) (hk : k < b.length) :
    ∃ e r, Parse (b.take k) = .err e r ∧ e.isUnexpectedEof = true := by
  have hb : b.take k ++ b.drop k = b := List.take_append_drop k b
  have ht : b.drop k ≠ [] := by
    intro h0
    have := congrArg List.length h0
    simp at this
    omega
  cases hp : Parse (b.take k) with
  | ok c1 r =>
    have h1 := stable_Parse.ok _ (b.drop k) c1 r hp
    rw [hb, h] at h1
    simp only [Res.ok.injEq] at h1
    have h2 := h1.2
    have : b.drop k = [] := (List.append_eq_nil.mp h2.symm).2
    exact absurd this ht
  | err e r =>
    rcases stable_Parse.err _ (b.drop k) e r hp with he | h1
    · exact ⟨e, r, rfl, he⟩
    · rw [hb, h] at h1
      cases h1
  | fuel => exact absurd hp (stable_Parse.nofuel _)

theorem Parse_truncated_witness :
    Parse sampleClass = .ok sampleClassfile [] ∧ 10 < sampleClass.length ∧
    ∃ e r, Parse (sampleClass.take 10) = .err e r ∧ e.isUnexpectedEof = true :=
  ⟨by decide, by decide, Parse_truncated sampleClass sampleClassfile (by decide) 10 (by decide)⟩

/-! ## Values read -/

theorem beNat_two_lt (bs : List Byte) (h : bs.length = 2) : beNat bs < 65536 := by
  match bs, h with
  | [a, b], _ =>
    have ha := a.isLt
    have hb := b.isLt
    simp only [beNat, List.foldl]
    omega

theorem readBytes_length {size : Nat} {s r : Stream} {bs : List Byte}
    (h : readBytes size s = .ok bs r) : bs.length = size := by
  by_cases hle : size ≤ s.length
  · rw [readBytes_of_le hle] at h
    cases h
    simp [hle]
  · rw [readBytes_of_lt (by omega)] at h
    cases h

theorem readUint16_lt {s r : Stream} {v : Nat} (h : readUint16 s = .ok v r) : v < 65536 := by
  obtain ⟨bs, r1, h1, h2⟩ := bind_eq_ok h
  cases h2
  exact beNat_two_lt bs (readBytes_length h1)

/-- The record built by a case of the switch carries the tag of that case. -/
theorem readConstant_tag {tag : Nat} {s r : Stream} {k : Constant}
    (h : readConstant tag s = .ok k r) : k.tag = tag := by
  unfold readConstant at h
  split at h <;>
    first
    | cases h
    | (obtain ⟨_, _, _, h⟩ := bind_eq_ok h
       cases h
       rfl)
    | (obtain ⟨_, _, _, h⟩ := bind_eq_ok h
       obtain ⟨_, _, _, h⟩ := bind_eq_ok h
       cases h
       rfl)

theorem Constant.isWide_iff (k : Constant) : k.isWide = true ↔ k.tag = 5 ∨ k.tag = 6 := by
  cases k <;> simp [Constant.isWide, Constant.tag]

theorem slotAfter_of_ok {tag : Nat} {s r : Stream} {k : Constant}
    (h : readConstant tag s = .ok k r) (i : Nat) :
    slotAfter tag i = if k.isWide then (i + 1) % 65536 else i := by
  have ht := readConstant_tag h
  subst ht
  unfold slotAfter
  by_cases hw : k.isWide = true
  · rw [if_pos ((Constant.isWide_iff k).mp hw), if_pos hw]
  · rw [if_neg (fun hc => hw ((Constant.isWide_iff k).mpr hc)), if_neg hw]

/-! ## Records and slots

The lemmas of this section assume `n ≤ 65534`, which holds whenever the count
field is not 0; the slot index then never wraps. -/

section Records

variable (n : Nat)

theorem cpRecords_done {i : Nat} (h : ¬ i < n) (fuel : Nat) (s : Stream) :
    cpRecords n (fuel + 1) i s = [] := by
  simp [cpRecords, h]

theorem cpRecords_nil (fuel i : Nat) : cpRecords n (fuel + 1) i [] = [] := by
  simp [cpRecords, readUint8]

theorem cpRecords_cons_ok {i : Nat} (h : i < n) (fuel : Nat)
    {b : Byte} {s1 s2 : Stream} {k : Constant} (hk : readConstant b.val s1 = .ok k s2) :
    cpRecords n (fuel + 1) i (b :: s1) =
      (i, k) :: cpRecords n fuel ((slotAfter b.val i + 1) % 65536) s2 := by
  simp [cpRecords, h, readUint8, hk]

theorem next_slot {i : Nat} (h : i < n) (hn : n ≤ 65534) {tag : Nat} {s1 s2 : Stream}
    {k : Constant} (hk : readConstant tag s1 = .ok k s2) :
    (slotAfter tag i + 1) % 65536 = if k.isWide then i + 2 else i + 1 := by
  rw [slotAfter_of_ok hk]
  by_cases hw : k.isWide = true
  · simp only [hw, if_true]
    omega
  · simp only [hw]
    simp only [Bool.false_eq_true, if_false]
    omega

/-- Past the bound the loop returns its state unchanged. -/
theorem cpLoop_past {fuel i : Nat} (h : ¬ i < n) {cp cp1 : List (Option Constant)}
    {s r : Stream} {i1 : Nat} (hrun : cpLoop n fuel i cp s = .ok (i1, cp1) r) :
    i1 = i ∧ cp1 = cp ∧ r = s := by
  cases fuel with
  | zero => cases hrun
  | succ fuel =>
    rw [cpLoop_done n h] at hrun
    cases hrun
    exact ⟨rfl, rfl, rfl⟩

/-- The final slot index counts one slot per record and one more per Long or
Double. -/
theorem cpLoop_index (hn : n ≤ 65534) : ∀ (fuel i : Nat) (cp : List (Option Constant))
    (s : Stream) (i1 : Nat) (cp1 : List (Option Constant)) (r : Stream),
    cpLoop n fuel i cp s = .ok (i1, cp1) r →
    i1 = i + (cpRecords n fuel i s).length +
      ((cpRecords n fuel i s).filter fun x => x.2.isWide).length := by
  intro fuel
  induction fuel with
  | zero => intro i cp s i1 cp1 r h; cases h
  | succ fuel ih =>
    intro i cp s i1 cp1 r h
    rcases cpLoop_cases n fuel i cp s with ⟨hi, h1⟩ | ⟨hi, hs, h1⟩ |
      ⟨hi, b, s1, e, s2, hs, hk, h1⟩ | ⟨hi, b, s1, k, s2, hs, hk, h1⟩
    · rw [h1] at h
      cases h
      simp [cpRecords_done n hi]
    · rw [h1] at h
      cases h
      simp [hs, cpRecords_nil]
    · rw [h1] at h
      cases h
    · rw [h1] at h
      subst hs
      have := ih _ _ _ _ _ _ h
      rw [cpRecords_cons_ok n hi fuel hk, this, next_slot n hi hn hk]
      by_cases hw : k.isWide = true
      · simp [hw]
        omega
      · simp [hw]
        omega

/-- Records are stored at or after the slot the loop starts from, below the
bound. -/
theorem cpRecords_slot (hn : n ≤ 65534) : ∀ (fuel i : Nat) (s : Stream) (x : Nat × Constant),
    x ∈ cpRecords n fuel i s → i ≤ x.1 ∧ x.1 < n := by
  intro fuel
  induction fuel with
  | zero => intro i s x h; simp [cpRecords] at h
  | succ fuel ih =>
    intro i s x h
    by_cases hi : i < n
    · cases s with
      | nil => simp [cpRecords_nil] at h
      | cons b s1 =>
        cases hk : readConstant b.val s1 with
        | ok k s2 =>
          rw [cpRecords_cons_ok n hi fuel hk, List.mem_cons] at h
          rcases h with rfl | h
          · exact ⟨le_refl _, hi⟩
          · have := ih _ _ _ h
            rw [next_slot n hi hn hk] at this
            split_ifs at this <;> omega
        | err e s2 => simp [cpRecords, hi, readUint8, hk] at h
        | fuel => simp [cpRecords, hi, readUint8, hk] at h
    · simp [cpRecords_done n hi] at h

/-- The loop never writes below the slot it starts from. -/
theorem cpLoop_below (hn : n ≤ 65534) : ∀ (fuel i : Nat) (cp : List (Option Constant))
    (s : Stream) (i1 : Nat) (cp1 : List (Option Constant)) (r : Stream),
    cpLoop n fuel i cp s = .ok (i1, cp1) r → ∀ q, q < i → cp1[q]? = cp[q]? := by
  intro fuel
  induction fuel with
  | zero => intro i cp s i1 cp1 r h; cases h
  | succ fuel ih =>
    intro i cp s i1 cp1 r h q hq
    rcases cpLoop_cases n fuel i cp s with ⟨hi, h1⟩ | ⟨hi, hs, h1⟩ |
      ⟨hi, b, s1, e, s2, hs, hk, h1⟩ | ⟨hi, b, s1, k, s2, hs, hk, h1⟩
    · rw [h1] at h
      cases h
      rfl
    · rw [h1] at h
      cases h
      rfl
    · rw [h1] at h
      cases h
    · rw [h1, next_slot n hi hn hk] at h
      have := ih _ _ _ _ _ _ h q (by split_ifs <;> omega)
      rw [this, List.getElem?_set_ne (by omega)]

/-- The slot after a Long or Double record is left as it was. -/
theorem cpLoop_skip (hn : n ≤ 65534) : ∀ (fuel i : Nat) (cp : List (Option Constant))
    (s : Stream) (i1 : Nat) (cp1 : List (Option Constant)) (r : Stream),
    cpLoop n fuel i cp s = .ok (i1, cp1) r →
    ∀ x, x ∈ cpRecords n fuel i s → x.2.isWide = true → cp1[x.1 + 1]? = cp[x.1 + 1]? := by
  intro fuel
  induction fuel with
  | zero => intro i cp s i1 cp1 r h; cases h
  | succ fuel ih =>
    intro i cp s i1 cp1 r h x hx hw
    rcases cpLoop_cases n fuel i cp s with ⟨hi, h1⟩ | ⟨hi, hs, h1⟩ |
      ⟨hi, b, s1, e, s2, hs, hk, h1⟩ | ⟨hi, b, s1, k, s2, hs, hk, h1⟩
    · simp [cpRecords_done n hi] at hx
    · simp [hs, cpRecords_nil] at hx
    · rw [h1] at h
      cases h
    · rw [h1] at h
      subst hs
      rw [cpRecords_cons_ok n hi fuel hk, List.mem_cons] at hx
      rcases hx with rfl | hx
      · rw [next_slot n hi hn hk] at h
        simp only [hw, if_true] at h
        rw [cpLoop_below n hn _ _ _ _ _ _ _ h (i + 1) (by omega),
          List.getElem?_set_ne (by omega)]
      · have hslot := (cpRecords_slot n hn _ _ _ _ hx).1
        rw [next_slot n hi hn hk] at hslot
        rw [ih _ _ _ _ _ _ h x hx hw, List.getElem?_set_ne (by split_ifs at hslot <;> omega)]

/-- A loop that runs up to its bound ends exactly on it, unless the record in
the last slot is a Long or Double. -/
theorem cpLoop_final (hn : n ≤ 65534) : ∀ (fuel i : Nat) (cp : List (Option Constant))
    (s : Stream) (i1 : Nat) (cp1 : List (Option Constant)) (r : Stream),
    cpLoop n fuel i cp s = .ok (i1, cp1) r → n ≤ i1 → i ≤ n →
    i1 = n ∨ (i1 = n + 1 ∧ ∃ w, (n - 1, w) ∈ cpRecords n fuel i s ∧ w.isWide = true) := by
  intro fuel
  induction fuel with
  | zero => intro i cp s i1 cp1 r h; cases h
  | succ fuel ih =>
    intro i cp s i1 cp1 r h hfull hle
    rcases cpLoop_cases n fuel i cp s with ⟨hi, h1⟩ | ⟨hi, hs, h1⟩ |
      ⟨hi, b, s1, e, s2, hs, hk, h1⟩ | ⟨hi, b, s1, k, s2, hs, hk, h1⟩
    · rw [h1] at h
      cases h
      exact Or.inl (by omega)
    · rw [h1] at h
      cases h
      omega
    · rw [h1] at h
      cases h
    · rw [h1] at h
      subst hs
      rw [cpRecords_cons_ok n hi fuel hk]
      have hnext := next_slot n hi hn hk
      by_cases hin : (slotAfter b.val i + 1) % 65536 ≤ n
      · rcases ih _ _ _ _ _ _ h hfull hin with h2 | ⟨h2, w, hw, hww⟩
        · exact Or.inl h2
        · exact Or.inr ⟨h2, w, List.mem_cons_of_mem _ hw, hww⟩
      · have hp := cpLoop_past n (by omega) h
        refine Or.inr ⟨by split_ifs at hnext <;> omega, k, ?_, ?_⟩
        · have : n - 1 = i := by split_ifs at hnext <;> omega
          rw [this]
          exact List.mem_cons_self _ _
        · by_contra hw
          simp only [hw] at hnext
          simp at hnext
          omega

end Records

/-! ## One Long or Double in the pool -/

theorem count_pred {count : Nat} (h1 : 1 ≤ count) (h2 : count < 65536) :
    (count + 65535) % 65536 = count - 1 := by
  omega

theorem readConstantPoolState_eq {s s1 : Stream} {count : Nat}
    (h : readUint16 s = .ok count s1) :
    readConstantPoolState s =
      cpLoop ((count + 65535) % 65536) (s1.length + 1) 0
        (List.replicate ((count + 65535) % 65536) none) s1 :=
  bind_ok h

theorem readConstantPoolRecords_eq {s s1 : Stream} {count : Nat}
    (h : readUint16 s = .ok count s1) :
    readConstantPoolRecords s = cpRecords ((count + 65535) % 65536) (s1.length + 1) 0 s1 := by
  simp [readConstantPoolRecords, h]

/-- C2, as amended: when the pool section declares a count of `k+1` (here
`count`, so `k = count - 1`), the loop of `readConstantPool` runs up to its
bound (it ends with success and its slot index at or past `count - 1`, so it
was not ended by the end of the input), and exactly one of the records it
reads is a Long or Double, stored at a slot `p` that is not the last declared
one, then `readConstantPool` reads exactly `k - 1` records and the slot after
the Long or Double is left nil. -/
theorem readConstantPool_one_wide (s s1 r : Stream) (count i1 : Nat)
    (cp1 : List (Option Constant))
    (hcount : readUint16 s = .ok count s1) (hpos : 1 ≤ count)
    (hrun : readConstantPoolState s = .ok (i1, cp1) r)
    (hfull : count - 1 ≤ i1)
    (p : Nat) (w : Constant)
    (hw : (readConstantPoolRecords s).filter (fun x => x.2.isWide) = [(p, w)])
    (hp : p + 1 < count - 1) :
    (readConstantPoolRecords s).length = (count - 1) - 1 ∧ cp1[p + 1]? = some none := by
  have hlt := readUint16_lt hcount
  have hn : (count + 65535) % 65536 = count - 1 := count_pred hpos hlt
  rw [readConstantPoolState_eq hcount, hn] at hrun
  rw [readConstantPoolRecords_eq hcount, hn] at hw ⊢
  have hn1 : count - 1 ≤ 65534 := by omega
  have hmem : (p, w) ∈ cpRecords (count - 1) (s1.length + 1) 0 s1 ∧ w.isWide = true := by
    have : (p, w) ∈ (cpRecords (count - 1) (s1.length + 1) 0 s1).filter
        (fun x => x.2.isWide) := by
      rw [hw]
      exact List.mem_singleton_self _
    simpa [List.mem_filter] using this
  have hidx := cpLoop_index _ hn1 _ _ _ _ _ _ _ hrun
  rw [hw] at hidx
  constructor
  · rcases cpLoop_final _ hn1 _ _ _ _ _ _ _ hrun hfull (Nat.zero_le _) with h1 | ⟨_, w1, hw1, hww1⟩
    · simp at hidx
      omega
    · have : (count - 1 - 1, w1) ∈ (cpRecords (count - 1) (s1.length + 1) 0 s1).filter
          (fun x => x.2.isWide) := List.mem_filter.mpr ⟨hw1, hww1⟩
      rw [hw, List.mem_singleton] at this
      have := congrArg Prod.fst this
      simp at this
      omega
  · have := cpLoop_skip _ hn1 _ _ _ _ _ _ _ hrun (p, w) hmem.1 hmem.2
    rw [this, List.getElem?_replicate]
    simp [hp]

theorem readConstantPool_one_wide_witness :
    (readConstantPoolRecords poolLongFirst).length = (4 - 1) - 1 ∧
    [some (Constant.Long 0 1), none, some (Constant.Utf8 [])][0 + 1]? = some none :=
  readConstantPool_one_wide poolLongFirst (poolLongFirst.drop 2) [] 4 3
    [some (.Long 0 1), none, some (.Utf8 [])] (by decide) (by decide) (by decide) (by decide)
    0 (.Long 0 1) (by decide) (by decide)

/-- C2 fails as stated: with a declared count of 2 (`k = 1`) and a Long as the
only record, the pool decodes successfully, the Long is the one wide record,
and `readConstantPool` reads one record, not `k - 1 = 0`. -/
theorem readConstantPool_wide_last :
    readUint16 poolLongLast = .ok (1 + 1) (poolLongLast.drop 2) ∧
    readConstantPoolState poolLongLast = .ok (2, [some (.Long 0 1)]) [] ∧
    (readConstantPoolRecords poolLongLast).filter (fun x => x.2.isWide) = [(0, .Long 0 1)] ∧
    (readConstantPoolRecords poolLongLast).length ≠ 1 - 1 := by
  decide

/-! ## Unsupported tags -/

theorem readConstant_unsupported {tag : Nat} (h : tag ∉ supportedTags) (s : Stream) :
    readConstant tag s = .err (.unsupportedTag tag) s := by
  unfold readConstant
  split <;> first | rfl | (exact absurd (by decide) h)

/-- A loop that the end of the input stopped at a tag read fails with the
unsupported-tag error when an unsupported tag byte comes next. -/
theorem cpLoop_unsupported (n : Nat) {b : Byte} (hb : b.val ∉ supportedTags) (rest : Stream) :
    ∀ (fuel i : Nat) (cp : List (Option Constant)) (p : Stream) (i1 : Nat)
      (cp1 : List (Option Constant)),
    cpLoop n fuel i cp p = .ok (i1, cp1) [] → i1 < n →
    cpLoop n fuel i cp (p ++ b :: rest) = .err (.unsupportedTag b.val) rest := by
  intro fuel
  induction fuel with
  | zero => intro i cp p i1 cp1 h; cases h
  | succ fuel ih =>
    intro i cp p i1 cp1 h hi1
    rcases cpLoop_cases n fuel i cp p with ⟨hi, h1⟩ | ⟨hi, hs, h1⟩ |
      ⟨hi, b1, s1, e, s2, hs, hk, h1⟩ | ⟨hi, b1, s1, k, s2, hs, hk, h1⟩
    · rw [h1] at h
      cases h
      exact absurd hi1 hi
    · subst hs
      rw [List.nil_append]
      exact cpLoop_cons_err n hi fuel cp (readConstant_unsupported hb rest)
    · rw [h1] at h
      cases h
    · rw [h1] at h
      subst hs
      have hk1 := (stable_readConstant b1.val).ok s1 (b :: rest) k s2 hk
      rw [List.cons_append, cpLoop_cons_ok n hi fuel cp hk1]
      exact ih _ _ _ _ _ h hi1

theorem Parse_header (v0 v1 v2 v3 : Byte) (s : Stream) :
    Parse (magic ++ [v0, v1, v2, v3] ++ s) =
      (readConstantPool { Classfile.empty with
          MinorVersion := beNat [v0, v1], MajorVersion := beNat [v2, v3] } >>= parseTail) s :=
  rfl

/-- C3: in an input with a valid header (the marker and the four version
bytes `v`), let `pool` be the pool section up to a position where a tag byte
is expected (the loop of `readConstantPool`, run on `pool` alone, is stopped
by the end of the input with its slot index `i` below `count - 1`). If the
byte `b` at that position is not a supported tag, `Parse` fails with the
unsupported-tag error carrying `b`; it returns no Classfile and leaves
everything after the tag byte unread. -/
theorem Parse_unsupported_tag (v pool s1 rest : Stream) (b : Byte) (count i : Nat)
    (cp : List (Option Constant)) (hv : v.length = 4)
    (hcount : readUint16 pool = .ok count s1)
    (hpos : readConstantPoolState pool = .ok (i, cp) [])
    (hi : i < (count + 65535) % 65536)
    (hb : b.val ∉ supportedTags) :
    Parse (magic ++ v ++ pool ++ b :: rest) = .err (.unsupportedTag b.val) rest := by
  match v, hv with
  | [v0, v1, v2, v3], _ =>
    rw [List.append_assoc, Parse_header]
    have hcount1 := stable_readUint16.ok pool (b :: rest) count s1 hcount
    rw [readConstantPoolState_eq hcount] at hpos
    have h1 := cpLoop_unsupported _ hb rest _ _ _ _ _ _ hpos hi
    have h2 : readConstantPoolState (pool ++ b :: rest) = .err (.unsupportedTag b.val) rest := by
      rw [readConstantPoolState_eq hcount1,
        cpLoop_fuel_le _ (by simp : s1.length + 1 ≤ (s1 ++ b :: rest).length + 1) _ _ _
          (by rw [h1]; exact fun h => by cases h), h1]
    exact bind_err (bind_err h2)

theorem Parse_unsupported_tag_witness :
    Parse (magic ++ [0, 0, 0, 52] ++ [0, 3, 7, 0, 1] ++ (99 : Byte) :: [1, 2, 3]) =
      .err (.unsupportedTag 99) [1, 2, 3] :=
  Parse_unsupported_tag [0, 0, 0, 52] [0, 3, 7, 0, 1] [7, 0, 1] [1, 2, 3] 99 3 1
    [some (.Class 1), none] (by decide) (by decide) (by decide) (by decide) (by decide)

/-! ## The header check -/

theorem readCaffbabeFull_magic (rest : Stream) :
    readCaffbabeFull (magic ++ rest) = .ok () rest := by
  rw [readCaffbabeFull_apply]
  rfl

/-- When the first read of the source delivers at least four bytes, an input
whose first four bytes are not `CA FE BA BE` makes `Parse` fail with the magic
error, whatever follows, and the header check succeeds on an input that starts
with `CA FE BA BE`. -/
theorem readCaffbabe_of_four (first : Nat) (hf : 4 ≤ first) :
    (∀ s : Stream, 4 ≤ s.length → s.take 4 ≠ magic →
      ParseFrom first s = .err .magicWrong (s.drop 4)) ∧
    (∀ rest : Stream, readCaffbabe first (magic ++ rest) = .ok () rest) := by
  constructor
  · intro s hlen hne
    have : readCaffbabe first s = .err .magicWrong (s.drop 4) := by
      rw [readCaffbabe_apply (le_trans (Nat.min_le_left _ _) hf),
        if_neg (by simp; omega), if_pos hne]
    exact bind_err this
  · intro rest
    rw [readCaffbabe_apply (le_trans (Nat.min_le_left _ _) hf)]
    rfl

/-- C4 fails on the code: from a source whose first read delivers a single
byte, `readCaffbabe` gets one byte from its one `Read` and fails with "Cannot
read 4 bytes", both on an input that starts with `CA FE BA BE`, where the
header check should succeed, and on an input with another marker, where
`Parse` should fail with the magic error. -/
theorem readCaffbabe_short_read :
    sampleClass.take 4 = magic ∧
    readCaffbabe 1 sampleClass = .err (.cannotRead4 1) (sampleClass.drop 1) ∧
    ParseFrom 1 sampleClass = .err (.cannotRead4 1) (sampleClass.drop 1) ∧
    badMagicClass.take 4 ≠ magic ∧
    ParseFrom 1 badMagicClass = .err (.cannotRead4 1) (badMagicClass.drop 1) ∧
    ParseFrom 1 badMagicClass ≠ .err .magicWrong (badMagicClass.drop 4) := by
  decide

/-! ## Decoding the reference encoding -/

theorem beNat_be16 {v : Nat} (h : v < 65536) : beNat (be16 v) = v := by
  simp [be16, beBytes, beNat, Fin.ofNat]
  omega

theorem beNat_be32 {v : Nat} (h : v < 4294967296) : beNat (be32 v) = v := by
  simp [be32, beBytes, beNat, Fin.ofNat]
  omega

theorem be16_length (v : Nat) : (be16 v).length = 2 := rfl

theorem be32_length (v : Nat) : (be32 v).length = 4 := rfl

theorem readUint16_be16 {v : Nat} (h : v < 65536) (s : Stream) :
    readUint16 (be16 v ++ s) = .ok v s := by
  have := readBytes_append (be16 v) s
  rw [be16_length] at this
  rw [readUint16, bind_ok this, pure_apply, beNat_be16 h]

theorem readUint32_be32 {v : Nat} (h : v < 4294967296) (s : Stream) :
    readUint32 (be32 v ++ s) = .ok v s := by
  have := readBytes_append (be32 v) s
  rw [be32_length] at this
  rw [readUint32, bind_ok this, pure_apply, beNat_be32 h]

theorem readConstant_encode {k : Constant} (h : k.fits) (s : Stream) :
    readConstant k.tag (k.payload ++ s) = .ok k s := by
  cases k <;> simp only [Constant.fits] at h <;>
    simp only [Constant.tag, Constant.payload, readConstant, List.append_assoc]
  all_goals first
    | rw [bind_ok (readUint16_be16 h _)]; rfl
    | rw [bind_ok (readUint32_be32 h _)]; rfl
    | rw [bind_ok (readUint16_be16 h.1 _), bind_ok (readUint16_be16 h.2 _)]; rfl
    | rw [bind_ok (readUint32_be32 h.1 _), bind_ok (readUint32_be32 h.2 _)]; rfl
    | rw [bind_ok (readUint16_be16 h _), bind_ok (readBytes_append _ _)]; rfl
    | skip
  case MethodHandle rk ri =>
    have h8 : readUint8 ([Fin.ofNat rk] ++ (be16 ri ++ s)) = .ok (Fin.ofNat rk) (be16 ri ++ s) :=
      rfl
    rw [bind_ok h8, bind_ok (readUint16_be16 h.2 _), pure_apply]
    have : (Fin.ofNat rk : Byte).val = rk := by
      simp [Fin.ofNat]
      omega
    rw [this]

theorem Constant.tag_lt (k : Constant) : k.tag < 256 := by
  cases k <;> simp [Constant.tag]

theorem Constant.tag_val (k : Constant) : (Fin.ofNat k.tag : Byte).val = k.tag := by
  have := k.tag_lt
  simp [Fin.ofNat]
  omega

/-- One iteration of the loop on an encoded record. -/
theorem cpLoop_encode (n : Nat) {i : Nat} (hi : i < n) (fuel : Nat)
    (cp : List (Option Constant)) {k : Constant} (hk : k.fits) (s : Stream) :
    cpLoop n (fuel + 1) i cp (k.encode ++ s) =
      cpLoop n fuel ((slotAfter k.tag i + 1) % 65536) (cp.set i (some k)) s := by
  have h1 : readConstant (Fin.ofNat k.tag : Byte).val (k.payload ++ s) = .ok k s := by
    rw [Constant.tag_val]
    exact readConstant_encode hk s
  have := cpLoop_cons_ok n hi fuel cp h1
  rw [Constant.tag_val] at this
  simpa [Constant.encode] using this

theorem cpLoop_fuel_any (n : Nat) {f1 f2 : Nat} (i : Nat) (cp : List (Option Constant))
    (s : Stream) (h1 : cpLoop n f1 i cp s ≠ .fuel) (h2 : cpLoop n f2 i cp s ≠ .fuel) :
    cpLoop n f1 i cp s = cpLoop n f2 i cp s := by
  rcases le_total f1 f2 with h | h
  · exact (cpLoop_fuel_le n h i cp s h1).symm
  · exact cpLoop_fuel_le n h i cp s h2

theorem encodeUtf8s_cons (u : List Byte) (us : List (List Byte)) (s : Stream) :
    encodeUtf8s (u :: us) ++ s = (Constant.Utf8 u).encode ++ (encodeUtf8s us ++ s) := by
  simp [encodeUtf8s, Constant.encode, Constant.payload, Constant.tag, Fin.ofNat]

/-- The loop on a run of Utf8 records fills the slots in order. -/
theorem cpLoop_utf8s (rest : Stream) : ∀ (us : List (List Byte)) (pre : List (Option Constant))
    (fuel : Nat), (∀ u ∈ us, u.length < 65536) → pre.length + us.length ≤ 65534 →
    us.length < fuel →
    cpLoop (pre.length + us.length) fuel pre.length (pre ++ List.replicate us.length none)
        (encodeUtf8s us ++ rest) =
      .ok (pre.length + us.length, pre ++ us.map fun u => some (.Utf8 u)) rest := by
  intro us
  induction us with
  | nil =>
    intro pre fuel _ _ hf
    obtain ⟨f, rfl⟩ : ∃ f, fuel = f + 1 := ⟨fuel - 1, by simp at hf; omega⟩
    simp [encodeUtf8s, cpLoop_done]
  | cons u us ih =>
    intro pre fuel hu hlen hf
    obtain ⟨f, rfl⟩ : ∃ f, fuel = f + 1 := ⟨fuel - 1, by omega⟩
    simp only [List.length_cons] at hlen hf ⊢
    rw [encodeUtf8s_cons, cpLoop_encode _ (by omega) f _
      (show (Constant.Utf8 u).fits from hu u (List.mem_cons_self _ _))]
    have hnext : (slotAfter (Constant.Utf8 u).tag pre.length + 1) % 65536 =
        (pre ++ [some (Constant.Utf8 u)]).length := by
      simp [slotAfter, Constant.tag]
      omega
    have hset : (pre ++ List.replicate (us.length + 1) none).set pre.length
        (some (Constant.Utf8 u)) =
        (pre ++ [some (Constant.Utf8 u)]) ++ List.replicate us.length none := by
      simp [List.replicate_succ, List.set_append]
    have hn : pre.length + (us.length + 1) =
        (pre ++ [some (Constant.Utf8 u)]).length + us.length := by
      simp
      omega
    rw [hnext, hset, hn, ih _ f (fun v hv => hu v (List.mem_cons_of_mem _ hv))
      (by simp; omega) (by omega)]
    simp

theorem readConstantPoolState_utf8s (us : List (List Byte)) (rest : Stream)
    (hu : ∀ u ∈ us, u.length < 65536) (hlen : us.length < 65535) :
    readConstantPoolState (be16 (us.length + 1) ++ (encodeUtf8s us ++ rest)) =
      .ok (us.length, us.map fun u => some (.Utf8 u)) rest := by
  rw [readConstantPoolState_eq (readUint16_be16 (by omega) _),
    count_pred (by omega) (by omega), Nat.add_sub_cancel]
  have h := cpLoop_utf8s rest us [] (us.length + 1) hu (by simp; omega) (Nat.lt_succ_self _)
  simp only [List.length_nil, Nat.zero_add, List.nil_append] at h
  rw [cpLoop_fuel_any us.length 0 _ _ (cpLoop_nofuel _ _ _ _ _ (Nat.lt_succ_self _))
    (by rw [h]; exact fun h => by cases h), h]

theorem parseTail_minimal (c : Classfile) {access this super : Nat} (ha : access < 65536)
    (ht : this < 65536) (hs : super < 65536) :
    parseTail c (be16 access ++ (be16 this ++ (be16 super ++ [0, 0, 0, 0, 0, 0, 0, 0]))) =
      .ok { c with AccessFlags := access, ThisClass := this, SuperClass := super,
                   Attribute := [] } [] := by
  have h1 : readAccessFlag c (be16 access ++ (be16 this ++ (be16 super ++
      [0, 0, 0, 0, 0, 0, 0, 0]))) = .ok { c with AccessFlags := access } _ :=
    bind_ok (readUint16_be16 ha _)
  have h2 : readThisClass { c with AccessFlags := access } (be16 this ++ (be16 super ++
      [0, 0, 0, 0, 0, 0, 0, 0])) = .ok { c with AccessFlags := access, ThisClass := this } _ :=
    bind_ok (readUint16_be16 ht _)
  have h3 : readSuperClass { c with AccessFlags := access, ThisClass := this }
      (be16 super ++ [0, 0, 0, 0, 0, 0, 0, 0]) =
      .ok { c with AccessFlags := access, ThisClass := this, SuperClass := super } _ :=
    bind_ok (readUint16_be16 hs _)
  rw [parseTail, bind_ok h1, bind_ok h2, bind_ok h3]
  rfl

theorem Parse_utf8_pool (minor major : Nat) (us : List (List Byte)) (rest : Stream)
    (hminor : minor < 65536) (hmajor : major < 65536)
    (hlen : us.length < 65535) (hu : ∀ u ∈ us, u.length < 65536) :
    Parse (magic ++ (be16 minor ++ (be16 major ++ (be16 (us.length + 1) ++
      (encodeUtf8s us ++ rest))))) =
    parseTail { Classfile.empty with
                  MinorVersion := minor, MajorVersion := major,
                  ConstantPool := ⟨us.map fun u => some (.Utf8 u)⟩ } rest := by
  have h1 : readMinorVersion Classfile.empty (be16 minor ++ (be16 major ++
      (be16 (us.length + 1) ++ (encodeUtf8s us ++ rest)))) =
      .ok { Classfile.empty with MinorVersion := minor }
        (be16 major ++ (be16 (us.length + 1) ++ (encodeUtf8s us ++ rest))) :=
    bind_ok (readUint16_be16 hminor _)
  have h2 : readMajorVersion { Classfile.empty with MinorVersion := minor } (be16 major ++
      (be16 (us.length + 1) ++ (encodeUtf8s us ++ rest))) =
      .ok { Classfile.empty with MinorVersion := minor, MajorVersion := major }
        (be16 (us.length + 1) ++ (encodeUtf8s us ++ rest)) :=
    bind_ok (readUint16_be16 hmajor _)
  have h3 : readConstantPool { Classfile.empty with MinorVersion := minor, MajorVersion := major }
      (be16 (us.length + 1) ++ (encodeUtf8s us ++ rest)) =
      .ok { Classfile.empty with
              MinorVersion := minor, MajorVersion := major,
              ConstantPool := ⟨us.map fun u => some (.Utf8 u)⟩ } rest := by
    unfold readConstantPool
    rw [bind_ok (readConstantPoolState_utf8s us _ hu hlen)]
    rfl
  rw [Parse_eq, bind_ok (readCaffbabeFull_magic _), bind_ok h1, bind_ok h2, bind_ok h3]

/-- C5: `Parse` applied to the reference encoding of a class with the Utf8
constants `us` and no interfaces, fields, methods or attributes succeeds,
consumes the whole input, and returns the versions, flags and class indices
that were written (the minor version from bytes 4-5, the major version from
bytes 6-7), a pool that consists of exactly the entries `us` in order, and
empty collections. -/
theorem Parse_encodeMinimal (minor major access this super : Nat) (us : List (List Byte))
    (hminor : minor < 65536) (hmajor : major < 65536) (haccess : access < 65536)
    (hthis : this < 65536) (hsuper : super < 65536)
    (hlen : us.length < 65535) (hu : ∀ u ∈ us, u.length < 65536) :
    Parse (encodeMinimal minor major us access this super) =
      .ok { MajorVersion := major, MinorVersion := minor,
            ConstantPool := ⟨us.map fun u => some (.Utf8 u)⟩,
            AccessFlags := access, ThisClass := this, SuperClass := super,
            Interfaces := [], Fields := [], Methods := [], Attribute := [] } [] := by
  simp only [encodeMinimal, List.append_assoc]
  rw [Parse_utf8_pool minor major us _ hminor hmajor hlen hu,
    parseTail_minimal _ haccess hthis hsuper]
  rfl

theorem Parse_encodeMinimal_witness :
    Parse (encodeMinimal 0 52 [[84, 101, 115, 116]] 0x21 1 0) =
      .ok { MajorVersion := 52, MinorVersion := 0,
            ConstantPool := ⟨[some (.Utf8 [84, 101, 115, 116])]⟩,
            AccessFlags := 0x21, ThisClass := 1, SuperClass := 0,
            Interfaces := [], Fields := [], Methods := [], Attribute := [] } [] :=
  Parse_encodeMinimal 0 52 0x21 1 0 [[84, 101, 115, 116]] (by decide) (by decide) (by decide)
    (by decide) (by decide) (by decide) (by decide)

/-! ## Parse, stage by stage -/

theorem bind_assoc_apply {α β γ : Type} (f : Parser α) (g : α → Parser β) (h : β → Parser γ) :
    (f >>= g) >>= h = f >>= fun a => g a >>= h := by
  funext s
  simp only [bind_apply]
  cases f s <;> rfl

theorem Parse_stages : Parse = (do
    let c ← parseToFields
    let c ← readFields c
    let c ← readMethods c
    parseAttributes c) := by
  rw [Parse_def]
  simp only [parseToFields, parseAttributes, bind_assoc_apply]

/-! ## Loops, iteration by iteration -/

theorem readAttributesLoop_split (c : ConstantPool) (m : Nat) : ∀ (j : Nat)
    (as as1 : List (Option Attribute)) (s s1 : Stream),
    readAttributesLoop c j as s = .ok as1 s1 →
    readAttributesLoop c (j + m) as s = readAttributesLoop c m as1 s1 := by
  intro j
  induction j with
  | zero =>
    intro as as1 s s1 h
    cases h
    rw [Nat.zero_add]
  | succ j ih =>
    intro as as1 s s1 h
    obtain ⟨a, r, h1, h2⟩ := bind_eq_ok h
    rw [Nat.add_right_comm]
    exact (bind_ok h1).trans (ih _ _ _ _ h2)

theorem readFieldsLoop_pool : ∀ (j : Nat) (c c1 : Classfile) (s s1 : Stream),
    readFieldsLoop j c s = .ok c1 s1 → c1.ConstantPool = c.ConstantPool := by
  intro j
  induction j with
  | zero =>
    intro c c1 s s1 h
    cases h
    rfl
  | succ j ih =>
    intro c c1 s s1 h
    obtain ⟨_, _, _, h⟩ := bind_eq_ok h
    obtain ⟨_, _, _, h⟩ := bind_eq_ok h
    obtain ⟨_, _, _, h⟩ := bind_eq_ok h
    obtain ⟨_, _, _, h⟩ := bind_eq_ok h
    exact (ih _ _ _ _ h).trans rfl

theorem readFieldsLoop_split (m : Nat) : ∀ (j : Nat) (c c1 : Classfile) (s s1 : Stream),
    readFieldsLoop j c s = .ok c1 s1 →
    readFieldsLoop (j + m) c s = readFieldsLoop m c1 s1 := by
  intro j
  induction j with
  | zero =>
    intro c c1 s s1 h
    cases h
    rw [Nat.zero_add]
  | succ j ih =>
    intro c c1 s s1 h
    obtain ⟨_, _, h1, h⟩ := bind_eq_ok h
    obtain ⟨_, _, h2, h⟩ := bind_eq_ok h
    obtain ⟨_, _, h3, h⟩ := bind_eq_ok h
    obtain ⟨_, _, h4, h⟩ := bind_eq_ok h
    rw [Nat.add_right_comm]
    exact (bind_ok h1).trans ((bind_ok h2).trans ((bind_ok h3).trans
      ((bind_ok h4).trans (ih _ _ _ _ h))))

theorem readMethodsLoop_pool : ∀ (j : Nat) (c c1 : Classfile) (s s1 : Stream),
    readMethodsLoop j c s = .ok c1 s1 → c1.ConstantPool = c.ConstantPool := by
  intro j
  induction j with
  | zero =>
    intro c c1 s s1 h
    cases h
    rfl
  | succ j ih =>
    intro c c1 s s1 h
    obtain ⟨_, _, _, h⟩ := bind_eq_ok h
    obtain ⟨_, _, _, h⟩ := bind_eq_ok h
    obtain ⟨_, _, _, h⟩ := bind_eq_ok h
    obtain ⟨_, _, _, h⟩ := bind_eq_ok h
    exact (ih _ _ _ _ h).trans rfl

theorem readMethodsLoop_split (m : Nat) : ∀ (j : Nat) (c c1 : Classfile) (s s1 : Stream),
    readMethodsLoop j c s = .ok c1 s1 →
    readMethodsLoop (j + m) c s = readMethodsLoop m c1 s1 := by
  intro j
  induction j with
  | zero =>
    intro c c1 s s1 h
    cases h
    rw [Nat.zero_add]
  | succ j ih =>
    intro c c1 s s1 h
    obtain ⟨_, _, h1, h⟩ := bind_eq_ok h
    obtain ⟨_, _, h2, h⟩ := bind_eq_ok h
    obtain ⟨_, _, h3, h⟩ := bind_eq_ok h
    obtain ⟨_, _, h4, h⟩ := bind_eq_ok h
    rw [Nat.add_right_comm]
    exact (bind_ok h1).trans ((bind_ok h2).trans ((bind_ok h3).trans
      ((bind_ok h4).trans (ih _ _ _ _ h))))

/-! ## Attribute names -/

theorem LookupUtf8_none_of (c : ConstantPool) (idx : Nat)
    (h : idx = 0 ∨ c.Constants.length < idx ∨ c.Constants[idx - 1]? = some none ∨
      ∃ k, c.Constants[idx - 1]? = some (some k) ∧ k.tag ≠ 1) :
    c.LookupUtf8 idx = none := by
  unfold ConstantPool.LookupUtf8
  rcases h with h | h | h | ⟨k, h, hk⟩
  · rw [if_pos h]
  · by_cases h0 : idx = 0
    · rw [if_pos h0]
    · rw [if_neg h0, List.getElem?_eq_none (by omega)]
  · by_cases h0 : idx = 0
    · rw [if_pos h0]
    · rw [if_neg h0, h]
  · by_cases h0 : idx = 0
    · rw [if_pos h0]
    · rw [if_neg h0, h]
      cases k <;> first | rfl | exact absurd rfl hk

theorem readBytes_err {size : Nat} {s r : Stream} {e : Error}
    (h : readBytes size s = .err e r) : e = .cannotRead size s.length := by
  by_cases hle : size ≤ s.length
  · rw [readBytes_of_le hle] at h
    cases h
  · rw [readBytes_of_lt (by omega)] at h
    cases h
    rfl

theorem readUint16_err {s r : Stream} {e : Error} (h : readUint16 s = .err e r) :
    e = .cannotRead 2 s.length := by
  rcases bind_eq_err h with h1 | ⟨_, _, _, h2⟩
  · exact readBytes_err h1
  · cases h2

theorem readUint32_err {s r : Stream} {e : Error} (h : readUint32 s = .err e r) :
    e = .cannotRead 4 s.length := by
  rcases bind_eq_err h with h1 | ⟨_, _, _, h2⟩
  · exact readBytes_err h1
  · cases h2

theorem readAttribute_of_none {c : ConstantPool} {s s1 s2 : Stream} {idx len : Nat}
    (h1 : readUint16 s = .ok idx s1) (h2 : readUint32 s1 = .ok len s2)
    (h : c.LookupUtf8 idx = none) :
    readAttribute c s = .err (.invalidAttributeNameIndex idx) s2 := by
  rw [readAttribute, bind_ok h1, bind_ok h2, h]
  rfl

theorem readAttribute_of_some {c : ConstantPool} {s s1 s2 : Stream} {idx len : Nat}
    {u : List Byte} (h1 : readUint16 s = .ok idx s1) (h2 : readUint32 s1 = .ok len s2)
    (h : c.LookupUtf8 idx = some u) :
    readAttribute c s = (readBytes len >>= fun _ => pure none) s2 := by
  rw [readAttribute, bind_ok h1, bind_ok h2, h]

theorem readAttribute_err_invalid {c : ConstantPool} {s r : Stream} {idx : Nat}
    (h : readAttribute c s = .err (.invalidAttributeNameIndex idx) r) :
    c.LookupUtf8 idx = none := by
  rcases bind_eq_err h with h1 | ⟨i, s1, h1, h⟩
  · cases readUint16_err h1
  · rcases bind_eq_err h with h2 | ⟨len, s2, h2, h⟩
    · cases readUint32_err h2
    · cases hl : c.LookupUtf8 i with
      | none =>
        rw [hl] at h
        cases h
        exact hl
      | some u =>
        rw [hl] at h
        rcases bind_eq_err h with h3 | ⟨_, _, _, h3⟩
        · cases readBytes_err h3
        · cases h3

theorem readAttributes_err {c : ConstantPool} {s s0 s1 r : Stream} {n j : Nat}
    {as : List (Option Attribute)} {e : Error}
    (hn : readUint16 s = .ok n s0) (hj : j < n)
    (hloop : readAttributesLoop c j (List.replicate n none) s0 = .ok as s1)
    (h : readAttribute c s1 = .err e r) : readAttributes c s = .err e r := by
  obtain ⟨m, rfl⟩ : ∃ m, n = j + (m + 1) := ⟨n - j - 1, by omega⟩
  rw [readAttributes, bind_ok hn, readAttributesLoop_split c (m + 1) j _ _ _ _ hloop]
  exact bind_err h

theorem readFields_err {c c1 : Classfile} {s s0 s1 s2 s3 s4 r : Stream} {n j a b d : Nat}
    {e : Error} (hn : readUint16 s = .ok n s0) (hj : j < n)
    (hloop : readFieldsLoop j c s0 = .ok c1 s1)
    (ha : readUint16 s1 = .ok a s2) (hb : readUint16 s2 = .ok b s3)
    (hd : readUint16 s3 = .ok d s4)
    (h : readAttributes c.ConstantPool s4 = .err e r) : readFields c s = .err e r := by
  obtain ⟨m, rfl⟩ : ∃ m, n = j + (m + 1) := ⟨n - j - 1, by omega⟩
  rw [← readFieldsLoop_pool j c c1 s0 s1 hloop] at h
  rw [readFields, bind_ok hn, readFieldsLoop_split (m + 1) j _ _ _ _ hloop]
  exact (bind_ok ha).trans ((bind_ok hb).trans ((bind_ok hd).trans (bind_err h)))

theorem readMethods_err {c c1 : Classfile} {s s0 s1 s2 s3 s4 r : Stream} {n j a b d : Nat}
    {e : Error} (hn : readUint16 s = .ok n s0) (hj : j < n)
    (hloop : readMethodsLoop j c s0 = .ok c1 s1)
    (ha : readUint16 s1 = .ok a s2) (hb : readUint16 s2 = .ok b s3)
    (hd : readUint16 s3 = .ok d s4)
    (h : readAttributes c.ConstantPool s4 = .err e r) : readMethods c s = .err e r := by
  obtain ⟨m, rfl⟩ : ∃ m, n = j + (m + 1) := ⟨n - j - 1, by omega⟩
  rw [← readMethodsLoop_pool j c c1 s0 s1 hloop] at h
  rw [readMethods, bind_ok hn, readMethodsLoop_split (m + 1) j _ _ _ _ hloop]
  exact (bind_ok ha).trans ((bind_ok hb).trans ((bind_ok hd).trans (bind_err h)))

/-- C6: an attribute name index that does not resolve to a Utf8 entry of the
pool (index 0, an index beyond the pool, a nil slot such as the one after a
Long or Double, or an entry of another variant) makes `readAttribute` fail
with the invalid-name-index error once the index and the length are read;
`readAttribute` raises that error only for an index that does not resolve;
`readAttributes` fails with the error of the first record that fails, and so
does `Parse`, whether the list is that of a field, of a method or of the
class. -/
theorem invalid_attribute_name_index :
    (∀ (c : ConstantPool) (idx : Nat),
      (idx = 0 ∨ c.Constants.length < idx ∨ c.Constants[idx - 1]? = some none ∨
        ∃ k, c.Constants[idx - 1]? = some (some k) ∧ k.tag ≠ 1) →
      c.LookupUtf8 idx = none) ∧
    (∀ (c : ConstantPool) (s s1 s2 : Stream) (idx len : Nat),
      readUint16 s = .ok idx s1 → readUint32 s1 = .ok len s2 → c.LookupUtf8 idx = none →
      readAttribute c s = .err (.invalidAttributeNameIndex idx) s2) ∧
    (∀ (c : ConstantPool) (s r : Stream) (idx : Nat),
      readAttribute c s = .err (.invalidAttributeNameIndex idx) r → c.LookupUtf8 idx = none) ∧
    (∀ (c : ConstantPool) (s s0 s1 r : Stream) (n j : Nat) (as : List (Option Attribute))
      (e : Error),
      readUint16 s = .ok n s0 → j < n →
      readAttributesLoop c j (List.replicate n none) s0 = .ok as s1 →
      readAttribute c s1 = .err e r → readAttributes c s = .err e r) ∧
    (∀ (s s0 s1 s2 s3 s4 s5 r : Stream) (c c1 : Classfile) (n j a b d : Nat) (e : Error),
      parseToFields s = .ok c s0 → readUint16 s0 = .ok n s1 → j < n →
      readFieldsLoop j c s1 = .ok c1 s2 → readUint16 s2 = .ok a s3 →
      readUint16 s3 = .ok b s4 → readUint16 s4 = .ok d s5 →
      readAttributes c.ConstantPool s5 = .err e r → Parse s = .err e r) ∧
    (∀ (s s0 sf s1 s2 s3 s4 s5 r : Stream) (c cf c1 : Classfile) (n j a b d : Nat)
      (e : Error),
      parseToFields s = .ok c s0 → readFields c s0 = .ok cf sf →
      readUint16 sf = .ok n s1 → j < n →
      readMethodsLoop j cf s1 = .ok c1 s2 → readUint16 s2 = .ok a s3 →
      readUint16 s3 = .ok b s4 → readUint16 s4 = .ok d s5 →
      readAttributes cf.ConstantPool s5 = .err e r → Parse s = .err e r) ∧
    (∀ (s s0 sf sm r : Stream) (c cf cm : Classfile) (e : Error),
      parseToFields s = .ok c s0 → readFields c s0 = .ok cf sf →
      readMethods cf sf = .ok cm sm →
      readAttributes cm.ConstantPool sm = .err e r → Parse s = .err e r) := by
  refine ⟨LookupUtf8_none_of, ?_, ?_, ?_, ?_, ?_, ?_⟩
  · intro c s s1 s2 idx len h1 h2 h
    exact readAttribute_of_none h1 h2 h
  · intro c s r idx h
    exact readAttribute_err_invalid h
  · intro c s s0 s1 r n j as e hn hj hloop h
    exact readAttributes_err hn hj hloop h
  · intro s s0 s1 s2 s3 s4 s5 r c c1 n j a b d e hp hn hj hloop ha hb hd h
    rw [Parse_stages, bind_ok hp]
    exact bind_err (readFields_err hn hj hloop ha hb hd h)
  · intro s s0 sf s1 s2 s3 s4 s5 r c cf c1 n j a b d e hp hf hn hj hloop ha hb hd h
    rw [Parse_stages, bind_ok hp, bind_ok hf]
    exact bind_err (readMethods_err hn hj hloop ha hb hd h)
  · intro s s0 sf sm r c cf cm e hp hf hm h
    rw [Parse_stages, bind_ok hp, bind_ok hf, bind_ok hm]
    exact bind_err h

theorem invalid_attribute_name_index_witness :
    readAttribute ⟨[some (.Class 1)]⟩ [0, 1, 0, 0, 0, 2, 7, 7] =
      .err (.invalidAttributeNameIndex 1) [7, 7] ∧
    Parse sampleBadAttribute = .err (.invalidAttributeNameIndex 5) [7, 7] :=
  ⟨invalid_attribute_name_index.2.1 ⟨[some (.Class 1)]⟩ [0, 1, 0, 0, 0, 2, 7, 7]
      [0, 0, 0, 2, 7, 7] [7, 7] 1 2 (by decide) (by decide)
      (invalid_attribute_name_index.1 _ 1
        (Or.inr (Or.inr (Or.inr ⟨.Class 1, by decide, by decide⟩)))),
    invalid_attribute_name_index.2.2.2.2.2.2 sampleBadAttribute
      (sampleBadAttribute.drop 25) (sampleBadAttribute.drop 27) (sampleBadAttribute.drop 29)
      [7, 7] (sampleClassfile) (sampleClassfile) (sampleClassfile)
      (.invalidAttributeNameIndex 5) (by decide) (by decide) (by decide) (by decide)⟩

/-! ## The attribute list -/

theorem readAttributesLoop_length (c : ConstantPool) : ∀ (n : Nat)
    (as as1 : List (Option Attribute)) (s r : Stream),
    readAttributesLoop c n as s = .ok as1 r → as1.length = as.length + n := by
  intro n
  induction n with
  | zero =>
    intro as as1 s r h
    cases h
    rfl
  | succ n ih =>
    intro as as1 s r h
    obtain ⟨a, r1, _, h2⟩ := bind_eq_ok h
    rw [ih _ _ _ _ h2]
    simp
    omega

/-- The list `readAttributes` returns has twice the declared count of
elements: the `count` nil values of `make`, then one element per record. -/
theorem readAttributes_length {c : ConstantPool} {s s0 r : Stream} {n : Nat}
    {as : List (Option Attribute)} (hn : readUint16 s = .ok n s0)
    (h : readAttributes c s = .ok as r) : as.length = 2 * n := by
  rw [readAttributes, bind_ok hn] at h
  rw [readAttributesLoop_length c _ _ _ _ _ h]
  simp
  omega

/-- C7 fails on the code: on an attribute list that declares one record and
holds it, `readAttributes` succeeds and returns two elements, not one. -/
theorem readAttributes_one_record :
    readUint16 oneAttribute = .ok 1 (oneAttribute.drop 2) ∧
    readAttributes samplePool oneAttribute = .ok [none, none] [] ∧
    ([none, none] : List (Option Attribute)).length ≠ 1 := by
  decide

/-! ## A pool cut short -/

/-- C8 fails on the code: on a pool section that declares two slots and ends
after the first record, the read of the next tag byte fails and
`readConstantPool` returns success with the second slot unfilled and the loop
stopped at slot 1, below its bound of 2. -/
theorem readConstantPool_cut_short :
    readUint8 (poolCutShort.drop 5) = .err .eof [] ∧
    readConstantPoolState poolCutShort = .ok (1, [some (.Class 1), none]) [] ∧
    readConstantPool Classfile.empty poolCutShort =
      .ok { Classfile.empty with ConstantPool := ⟨[some (.Class 1), none]⟩ } [] := by
  decide

/-! ## All or nothing -/

theorem pure_bind_apply {α β : Type} (a : α) (g : α → Parser β) : (pure a >>= g) = g a := rfl

theorem bind_pure_apply {α : Type} (f : Parser α) : (f >>= fun a => pure a) = f := by
  funext s
  simp only [bind_apply]
  cases f s <;> rfl

theorem Parse_runStages : Parse = runStages parseStages Classfile.empty := by
  rw [Parse_def]
  simp only [parseStages, runStages, parseAttributes, bind_assoc_apply, pure_bind_apply]

/-- A run of stages fails exactly when some stage fails after all the stages
before it succeeded, and it fails with the error of that stage. -/
theorem runStages_err_iff : ∀ (fs : List (Classfile → Parser Classfile)) (c : Classfile)
    (s : Stream) (e : Error) (r : Stream),
    runStages fs c s = .err e r ↔
      ∃ pre f post c1 s1, fs = pre ++ f :: post ∧ runStages pre c s = .ok c1 s1 ∧
        f c1 s1 = .err e r := by
  intro fs
  induction fs with
  | nil =>
    intro c s e r
    constructor
    · intro h
      cases h
    · rintro ⟨pre, f, post, _, _, h, _, _⟩
      exact absurd h (by simp)
  | cons g gs ih =>
    intro c s e r
    constructor
    · intro h
      rcases bind_eq_err h with h1 | ⟨c1, s1, h1, h2⟩
      · exact ⟨[], g, gs, c, s, rfl, rfl, h1⟩
      · obtain ⟨pre, f, post, c2, s2, hfs, hpre, hf⟩ := (ih c1 s1 e r).mp h2
        exact ⟨g :: pre, f, post, c2, s2, by rw [hfs]; rfl, (bind_ok h1).trans hpre, hf⟩
    · rintro ⟨pre, f, post, c1, s1, hfs, hpre, hf⟩
      cases pre with
      | nil =>
        simp only [List.nil_append, List.cons.injEq] at hfs
        obtain ⟨rfl, rfl⟩ := hfs
        cases hpre
        exact bind_err hf
      | cons g1 pre =>
        simp only [List.cons_append, List.cons.injEq] at hfs
        obtain ⟨rfl, rfl⟩ := hfs
        obtain ⟨c2, s2, h1, h2⟩ := bind_eq_ok hpre
        exact (bind_ok h1).trans ((ih c2 s2 e r).mpr ⟨pre, f, post, c1, s1, rfl, h2, hf⟩)

/-- A loop that ends with input left unread ended at its bound. -/
theorem cpLoop_rest (n : Nat) : ∀ (fuel i : Nat) (cp : List (Option Constant))
    (s : Stream) (i1 : Nat) (cp1 : List (Option Constant)) (r : Stream),
    cpLoop n fuel i cp s = .ok (i1, cp1) r → r ≠ [] → n ≤ i1 := by
  intro fuel
  induction fuel with
  | zero => intro i cp s i1 cp1 r h; cases h
  | succ fuel ih =>
    intro i cp s i1 cp1 r h hne
    rcases cpLoop_cases n fuel i cp s with ⟨hi, h1⟩ | ⟨hi, hs, h1⟩ |
      ⟨hi, b, s1, e, s2, hs, hk, h1⟩ | ⟨hi, b, s1, k, s2, hs, hk, h1⟩
    · rw [h1] at h
      cases h
      omega
    · rw [h1] at h
      cases h
      exact absurd rfl hne
    · rw [h1] at h
      cases h
    · rw [h1] at h
      exact ih _ _ _ _ _ _ h hne

theorem readBytes_rest {size : Nat} {s r : Stream} {bs : List Byte}
    (h : readBytes size s = .ok bs r) : r = s.drop size := by
  by_cases hle : size ≤ s.length
  · rw [readBytes_of_le hle] at h
    cases h
    rfl
  · rw [readBytes_of_lt (by omega)] at h
    cases h

theorem readUint16_rest {s r : Stream} {v : Nat} (h : readUint16 s = .ok v r) :
    r = s.drop 2 := by
  obtain ⟨bs, r1, h1, h2⟩ := bind_eq_ok h
  cases h2
  exact readBytes_rest h1

theorem readCaffbabe_rest {s r : Stream} {u : Unit} (h : readCaffbabeFull s = .ok u r) :
    r = s.drop 4 := by
  simp only [readCaffbabeFull_apply] at h
  split_ifs at h
  cases h
  rfl

theorem readInterfacesLoop_pool : ∀ (j : Nat) (c c1 : Classfile) (s s1 : Stream),
    readInterfacesLoop j c s = .ok c1 s1 → c1.ConstantPool = c.ConstantPool := by
  intro j
  induction j with
  | zero =>
    intro c c1 s s1 h
    cases h
    rfl
  | succ j ih =>
    intro c c1 s s1 h
    obtain ⟨_, _, _, h⟩ := bind_eq_ok h
    exact (ih _ _ _ _ h).trans rfl

/-- The stages after the constant pool leave the pool as it is. -/
theorem parseTail_pool {c c1 : Classfile} {s r : Stream} (h : parseTail c s = .ok c1 r) :
    c1.ConstantPool = c.ConstantPool := by
  obtain ⟨ca, _, h1, h⟩ := bind_eq_ok h
  obtain ⟨_, _, h1a, h1b⟩ := bind_eq_ok h1
  cases h1b
  obtain ⟨cb, _, h2, h⟩ := bind_eq_ok h
  obtain ⟨_, _, h2a, h2b⟩ := bind_eq_ok h2
  cases h2b
  obtain ⟨cc, _, h3, h⟩ := bind_eq_ok h
  obtain ⟨_, _, h3a, h3b⟩ := bind_eq_ok h3
  cases h3b
  obtain ⟨cd, _, h4, h⟩ := bind_eq_ok h
  obtain ⟨_, _, _, h4b⟩ := bind_eq_ok h4
  have e4 := readInterfacesLoop_pool _ _ _ _ _ h4b
  obtain ⟨ce, _, h5, h⟩ := bind_eq_ok h
  obtain ⟨_, _, _, h5b⟩ := bind_eq_ok h5
  have e5 := readFieldsLoop_pool _ _ _ _ _ h5b
  obtain ⟨cf, _, h6, h⟩ := bind_eq_ok h
  obtain ⟨_, _, _, h6b⟩ := bind_eq_ok h6
  have e6 := readMethodsLoop_pool _ _ _ _ _ h6b
  obtain ⟨_, _, _, h⟩ := bind_eq_ok h
  cases h
  exact (e6.trans (e5.trans e4)).trans rfl

/-- A Classfile that `Parse` returns holds a pool whose loop ran up to its
bound: the pool section starts at byte 8, and the loop of `readConstantPool`
left with its slot index at or past `count - 1`. -/
theorem Parse_pool_complete {s r : Stream} {c : Classfile} (h : Parse s = .ok c r) :
    ∃ count s1 i1 r1, readUint16 (s.drop 8) = .ok count s1 ∧
      readConstantPoolState (s.drop 8) = .ok (i1, c.ConstantPool.Constants) r1 ∧
      (count + 65535) % 65536 ≤ i1 := by
  rw [Parse_eq] at h
  obtain ⟨_, s0, h0, h⟩ := bind_eq_ok h
  obtain ⟨c1, s1, h1, h⟩ := bind_eq_ok h
  obtain ⟨c2, s2, h2, h⟩ := bind_eq_ok h
  obtain ⟨c3, s3, h3, h⟩ := bind_eq_ok h
  have hs0 := readCaffbabe_rest h0
  obtain ⟨_, _, h1a, h1b⟩ := bind_eq_ok h1
  cases h1b
  have hs1 := readUint16_rest h1a
  obtain ⟨_, _, h2a, h2b⟩ := bind_eq_ok h2
  cases h2b
  have hs2 := readUint16_rest h2a
  have hdrop : s2 = s.drop 8 := by
    rw [hs2, hs1, hs0]
    simp
  subst hdrop
  obtain ⟨⟨i1, cp1⟩, r1, hst, hpure⟩ := bind_eq_ok h3
  cases hpure
  have hpool := parseTail_pool h
  have hne : s3 ≠ [] := by
    rintro rfl
    rw [parseTail_nil] at h
    cases h
  obtain ⟨count, sc, hc, hloop⟩ := bind_eq_ok hst
  refine ⟨count, sc, i1, s3, hc, ?_, cpLoop_rest _ _ _ _ _ _ _ _ hloop hne⟩
  rw [hst, hpool]

/-- On every input `Parse` returns either a Classfile or an error, never both
and never neither; its error is the error returned by the first stage function
that returns one, the stages being run in source order; and a Classfile that
is returned has a pool whose loop ran up to its bound. An error that a stage
does not return, such as the failed tag read of `readConstantPool`, is not
covered by this statement. -/
theorem Parse_all_or_nothing (s : Stream) :
    ((Parse s).error ≠ none → (Parse s).classfile = none) ∧
    ((Parse s).error = none → (Parse s).classfile ≠ none) ∧
    (∀ e r, Parse s = .err e r ↔
      ∃ pre f post c1 s1, parseStages = pre ++ f :: post ∧
        runStages pre Classfile.empty s = .ok c1 s1 ∧ f c1 s1 = .err e r) ∧
    (∀ c r, Parse s = .ok c r →
      ∃ count s1 i1 r1, readUint16 (s.drop 8) = .ok count s1 ∧
        readConstantPoolState (s.drop 8) = .ok (i1, c.ConstantPool.Constants) r1 ∧
        (count + 65535) % 65536 ≤ i1) := by
  refine ⟨?_, ?_, ?_, ?_⟩
  · intro h
    cases hp : Parse s with
    | ok c r => rw [hp] at h; exact absurd rfl h
    | err e r => rfl
    | fuel => rfl
  · intro h
    cases hp : Parse s with
    | ok c r => exact fun h => by cases h
    | err e r => rw [hp] at h; cases h
    | fuel => exact absurd hp (stable_Parse.nofuel s)
  · intro e r
    rw [Parse_runStages]
    exact runStages_err_iff _ _ _ _ _
  · intro c r h
    exact Parse_pool_complete h

/-- C9 fails on the code: on a class file that ends inside the constant pool,
after the first of two declared records, the first read to fail is the read of
the next tag byte, with `io.EOF`; `readConstantPool` returns success all the
same, and `Parse` goes on to the access flags and returns the error of that
later read, not the first failure. -/
theorem Parse_swallowed_failure :
    readUint8 (classCutShort.drop 13) = .err .eof [] ∧
    readConstantPool { Classfile.empty with MajorVersion := 52 } (classCutShort.drop 8) =
      .ok { Classfile.empty with
              MajorVersion := 52, ConstantPool := ⟨[some (.Class 1), none]⟩ } [] ∧
    readAccessFlag { Classfile.empty with
        MajorVersion := 52, ConstantPool := ⟨[some (.Class 1), none]⟩ } [] =
      .err (.cannotRead 2 0) [] ∧
    Parse classCutShort = .err (.cannotRead 2 0) [] ∧
    (Parse classCutShort).error ≠ some .eof := by
  decide

/-! ## Slots and indices -/

theorem cpLoop_length (n : Nat) : ∀ (fuel i : Nat) (cp : List (Option Constant))
    (s : Stream) (i1 : Nat) (cp1 : List (Option Constant)) (r : Stream),
    cpLoop n fuel i cp s = .ok (i1, cp1) r → cp1.length = cp.length := by
  intro fuel
  induction fuel with
  | zero => intro i cp s i1 cp1 r h; cases h
  | succ fuel ih =>
    intro i cp s i1 cp1 r h
    rcases cpLoop_cases n fuel i cp s with ⟨hi, h1⟩ | ⟨hi, hs, h1⟩ |
      ⟨hi, b, s1, e, s2, hs, hk, h1⟩ | ⟨hi, b, s1, k, s2, hs, hk, h1⟩
    · rw [h1] at h
      cases h
      rfl
    · rw [h1] at h
      cases h
      rfl
    · rw [h1] at h
      cases h
    · rw [h1] at h
      rw [ih _ _ _ _ _ _ h, List.length_set]

/-- Each record is found in the final pool at the slot it was stored at. -/
theorem cpLoop_stored (n : Nat) (hn : n ≤ 65534) : ∀ (fuel i : Nat)
    (cp : List (Option Constant)) (s : Stream) (i1 : Nat) (cp1 : List (Option Constant))
    (r : Stream), cp.length = n →
    cpLoop n fuel i cp s = .ok (i1, cp1) r →
    ∀ x, x ∈ cpRecords n fuel i s → cp1[x.1]? = some (some x.2) := by
  intro fuel
  induction fuel with
  | zero => intro i cp s i1 cp1 r _ h; cases h
  | succ fuel ih =>
    intro i cp s i1 cp1 r hlen h x hx
    rcases cpLoop_cases n fuel i cp s with ⟨hi, h1⟩ | ⟨hi, hs, h1⟩ |
      ⟨hi, b, s1, e, s2, hs, hk, h1⟩ | ⟨hi, b, s1, k, s2, hs, hk, h1⟩
    · simp [cpRecords_done n hi] at hx
    · simp [hs, cpRecords_nil] at hx
    · rw [h1] at h
      cases h
    · rw [h1] at h
      subst hs
      rw [cpRecords_cons_ok n hi fuel hk, List.mem_cons] at hx
      rcases hx with rfl | hx
      · have hnext := next_slot n hi hn hk
        rw [cpLoop_below n hn _ _ _ _ _ _ _ h i (by rw [hnext]; split_ifs <;> omega),
          List.getElem?_set_self (by omega)]
      · exact ih _ _ _ _ _ _ (by rw [List.length_set]; exact hlen) h x hx

/-- The slots of the records, counted from 1, are the indices of the format. -/
theorem cpRecords_indices (n : Nat) (hn : n ≤ 65534) : ∀ (fuel i : Nat) (s : Stream),
    (cpRecords n fuel i s).map (fun x => x.1 + 1) =
      entryIndices ((cpRecords n fuel i s).map fun x => x.2) (i + 1) := by
  intro fuel
  induction fuel with
  | zero => intro i s; rfl
  | succ fuel ih =>
    intro i s
    by_cases hi : i < n
    · cases s with
      | nil => rw [cpRecords_nil]; rfl
      | cons b s1 =>
        cases hk : readConstant b.val s1 with
        | ok k s2 =>
          rw [cpRecords_cons_ok n hi fuel hk]
          simp only [List.map_cons, entryIndices]
          rw [ih, next_slot n hi hn hk]
          by_cases hw : k.isWide = true <;> simp [hw]
        | err e s2 =>
          have : cpRecords n (fuel + 1) i (b :: s1) = [] := by
            simp [cpRecords, hi, readUint8, hk]
          rw [this]
          rfl
        | fuel => exact absurd hk ((stable_readConstant b.val).nofuel s1)
    · rw [cpRecords_done n hi]
      rfl

/-- C10: when `readConstantPool` succeeds on a pool section whose count field
is `count ≥ 1`, the decoded pool has exactly `count - 1` slots, and each entry
read, numbered from 1 as the class-file format numbers pool entries (`j`
below), is stored at position `j - 1` of the pool. -/
theorem readConstantPool_slots (c c1 : Classfile) (s s1 r : Stream) (count : Nat)
    (hcount : readUint16 s = .ok count s1) (hpos : 1 ≤ count)
    (hrun : readConstantPool c s = .ok c1 r) :
    c1.ConstantPool.Constants.length = count - 1 ∧
    ∀ j k, (j, k) ∈ (entryIndices ((readConstantPoolRecords s).map fun x => x.2) 1).zip
        ((readConstantPoolRecords s).map fun x => x.2) →
      c1.ConstantPool.Constants[j - 1]? = some (some k) := by
  have hlt := readUint16_lt hcount
  have hn : (count + 65535) % 65536 = count - 1 := count_pred hpos hlt
  have hn1 : count - 1 ≤ 65534 := by omega
  obtain ⟨⟨i1, cp1⟩, r1, hst, hpure⟩ := bind_eq_ok hrun
  cases hpure
  rw [readConstantPoolState_eq hcount, hn] at hst
  rw [readConstantPoolRecords_eq hcount, hn]
  constructor
  · show cp1.length = count - 1
    rw [cpLoop_length _ _ _ _ _ _ _ _ hst, List.length_replicate]
  · intro j k hjk
    have hidx := cpRecords_indices (count - 1) hn1 (s1.length + 1) 0 s1
    rw [Nat.zero_add] at hidx
    rw [← hidx, List.zip_map', List.mem_map] at hjk
    obtain ⟨x, hx, heq⟩ := hjk
    cases heq
    have := cpLoop_stored (count - 1) hn1 _ _ _ _ _ _ _ (List.length_replicate _ _) hst x hx
    simpa using this

theorem readConstantPool_slots_witness :
    ([some (.Long 0 1), none, some (.Utf8 [])] : List (Option Constant)).length = 4 - 1 ∧
    ([some (.Long 0 1), none, some (.Utf8 [])] : List (Option Constant))[3 - 1]? =
      some (some (.Utf8 [])) :=
  ⟨(readConstantPool_slots Classfile.empty
      { Classfile.empty with ConstantPool := ⟨[some (.Long 0 1), none, some (.Utf8 [])]⟩ }
      poolLongFirst (poolLongFirst.drop 2) [] 4 (by decide) (by decide) (by decide)).1,
    (readConstantPool_slots Classfile.empty
      { Classfile.empty with ConstantPool := ⟨[some (.Long 0 1), none, some (.Utf8 [])]⟩ }
      poolLongFirst (poolLongFirst.drop 2) [] 4 (by decide) (by decide) (by decide)).2
      3 (.Utf8 []) (by decide)⟩

/-! ## The byte cursor -/

theorem readUint16_cons (a b : Byte) (rest : Stream) :
    readUint16 (a :: b :: rest) = .ok (a.val * 256 + b.val) rest := by
  simp [readUint16, bind_apply, readBytes, beNat, pure_apply]

theorem readUint32_cons (a b c d : Byte) (rest : Stream) :
    readUint32 (a :: b :: c :: d :: rest) =
      .ok (((a.val * 256 + b.val) * 256 + c.val) * 256 + d.val) rest := by
  simp [readUint32, bind_apply, readBytes, beNat, pure_apply]

theorem readUint16_of_lt {s : Stream} (h : s.length < 2) :
    readUint16 s = .err (.cannotRead 2 s.length) [] :=
  bind_err (readBytes_of_lt h)

theorem readUint32_of_lt {s : Stream} (h : s.length < 4) :
    readUint32 s = .err (.cannotRead 4 s.length) [] :=
  bind_err (readBytes_of_lt h)

/-- C13: `readBytes n` returns exactly the next `n` bytes and leaves the rest
when at least `n` bytes remain, and otherwise fails with the end-of-input
error of `readBytes` (no short slice is returned); `readUint16` and
`readUint32` return the big-endian value of the next 2 and 4 bytes under the
same rule. -/
theorem byte_cursor (s : Stream) (n : Nat) :
    (n ≤ s.length → readBytes n s = .ok (s.take n) (s.drop n) ∧ (s.take n).length = n ∧
      (s.drop n).length + n = s.length) ∧
    (s.length < n → readBytes n s = .err (.cannotRead n s.length) [] ∧
      (Error.cannotRead n s.length).isUnexpectedEof = true) ∧
    (∀ a b rest, s = a :: b :: rest → readUint16 s = .ok (a.val * 256 + b.val) rest) ∧
    (s.length < 2 → readUint16 s = .err (.cannotRead 2 s.length) []) ∧
    (∀ a b c d rest, s = a :: b :: c :: d :: rest →
      readUint32 s = .ok (((a.val * 256 + b.val) * 256 + c.val) * 256 + d.val) rest) ∧
    (s.length < 4 → readUint32 s = .err (.cannotRead 4 s.length) []) := by
  refine ⟨?_, ?_, ?_, ?_, ?_, ?_⟩
  · intro h
    refine ⟨readBytes_of_le h, ?_, ?_⟩
    · simp [h]
    · simp
      omega
  · intro h
    exact ⟨readBytes_of_lt h, rfl⟩
  · rintro a b rest rfl
    exact readUint16_cons a b rest
  · intro h
    exact readUint16_of_lt h
  · rintro a b c d rest rfl
    exact readUint32_cons a b c d rest
  · intro h
    exact readUint32_of_lt h

theorem byte_cursor_witness :
    readBytes 2 [1, 2, 3] = .ok [1, 2] [3] ∧
    readBytes 4 [1, 2, 3] = .err (.cannotRead 4 3) [] ∧
    readUint16 [1, 2, 3] = .ok 258 [3] ∧
    readUint32 [1, 2, 3] = .err (.cannotRead 4 3) [] :=
  ⟨((byte_cursor [1, 2, 3] 2).1 (by decide)).1,
    ((byte_cursor [1, 2, 3] 4).2.1 (by decide)).1,
    (byte_cursor [1, 2, 3] 0).2.2.1 1 2 [3] rfl,
    (byte_cursor [1, 2, 3] 0).2.2.2.2.2 (by decide)⟩

/-! ## Bytes consumed by the attribute list -/

theorem readBytes_ok_le {size : Nat} {s r : Stream} {bs : List Byte}
    (h : readBytes size s = .ok bs r) : size ≤ s.length := by
  by_contra hle
  rw [readBytes_of_lt (by omega)] at h
  cases h

theorem readUint16_ok_le {s r : Stream} {v : Nat} (h : readUint16 s = .ok v r) :
    2 ≤ s.length := by
  obtain ⟨bs, r1, h1, _⟩ := bind_eq_ok h
  exact readBytes_ok_le h1

theorem readUint32_rest {s r : Stream} {v : Nat} (h : readUint32 s = .ok v r) :
    r = s.drop 4 := by
  obtain ⟨bs, r1, h1, h2⟩ := bind_eq_ok h
  cases h2
  exact readBytes_rest h1

theorem readUint32_ok_le {s r : Stream} {v : Nat} (h : readUint32 s = .ok v r) :
    4 ≤ s.length := by
  obtain ⟨bs, r1, h1, _⟩ := bind_eq_ok h
  exact readBytes_ok_le h1

/-- What a successful `readAttribute` has read and what it returns. -/
theorem readAttribute_ok {c : ConstantPool} {s r : Stream} {a : Option Attribute}
    (h : readAttribute c s = .ok a r) :
    a = none ∧ ∃ idx len s1 s2 u, readUint16 s = .ok idx s1 ∧ readUint32 s1 = .ok len s2 ∧
      c.LookupUtf8 idx = some u ∧ len ≤ s2.length ∧ r = s2.drop len := by
  obtain ⟨idx, s1, h1, h⟩ := bind_eq_ok h
  obtain ⟨len, s2, h2, h⟩ := bind_eq_ok h
  cases hl : c.LookupUtf8 idx with
  | none =>
    rw [hl] at h
    cases h
  | some u =>
    rw [hl] at h
    obtain ⟨bs, r1, h3, h4⟩ := bind_eq_ok h
    cases h4
    exact ⟨rfl, idx, len, s1, s2, u, h1, h2, hl, readBytes_ok_le h3, readBytes_rest h3⟩

theorem readAttributesLoop_consumed (c : ConstantPool) : ∀ (n : Nat)
    (as as1 : List (Option Attribute)) (s r : Stream),
    readAttributesLoop c n as s = .ok as1 r →
    (declaredLengths n s).length = n ∧
    ((declaredLengths n s).map fun L => 6 + L).sum ≤ s.length ∧
    r = s.drop ((declaredLengths n s).map fun L => 6 + L).sum := by
  intro n
  induction n with
  | zero =>
    intro as as1 s r h
    cases h
    simp [declaredLengths]
  | succ n ih =>
    intro as as1 s r h
    obtain ⟨a, r1, h1, h2⟩ := bind_eq_ok h
    obtain ⟨_, idx, len, s1, s2, u, hi, hl, _, hle, hr1⟩ := readAttribute_ok h1
    obtain ⟨ih1, ih2, ih3⟩ := ih _ _ _ _ h2
    have e1 := readUint16_rest hi
    have e2 := readUint32_rest hl
    have l1 := readUint16_ok_le hi
    have l2 := readUint32_ok_le hl
    have hd : declaredLengths (n + 1) s = len :: declaredLengths n r1 := by
      simp [declaredLengths, hi, hl, hr1]
    have hr1' : r1 = s.drop (6 + len) := by
      rw [hr1, e2, e1, List.drop_drop, List.drop_drop]
      congr 1
      omega
    have hlen1 : r1.length + (6 + len) = s.length := by
      rw [hr1']
      simp
      rw [e2, e1] at hle
      simp at hle l2
      rw [e1] at l2
      simp at l2
      omega
    rw [hd]
    refine ⟨by simp [ih1], ?_, ?_⟩
    · simp only [List.map_cons, List.sum_cons]
      omega
    · simp only [List.map_cons, List.sum_cons]
      rw [ih3, hr1', List.drop_drop]

/-- C11: when `readAttributes` succeeds on an attribute list that declares `n`
records, whose declared payload lengths are `L_1 .. L_n`, it consumes exactly
`2 + Σ (6 + L_i)` bytes: what is left unread starts right after the last
payload. -/
theorem readAttributes_consumed (c : ConstantPool) (s s0 r : Stream) (n : Nat)
    (as : List (Option Attribute)) (hn : readUint16 s = .ok n s0)
    (h : readAttributes c s = .ok as r) :
    (declaredLengths n s0).length = n ∧
    s.length = r.length + (2 + ((declaredLengths n s0).map fun L => 6 + L).sum) ∧
    r = s.drop (2 + ((declaredLengths n s0).map fun L => 6 + L).sum) := by
  rw [readAttributes, bind_ok hn] at h
  obtain ⟨h1, h2, h3⟩ := readAttributesLoop_consumed c _ _ _ _ _ h
  have e0 := readUint16_rest hn
  have l0 := readUint16_ok_le hn
  subst e0
  have hr : r = s.drop (2 + ((declaredLengths n (s.drop 2)).map fun L => 6 + L).sum) := by
    rw [h3, List.drop_drop]
  refine ⟨h1, ?_, hr⟩
  rw [hr]
  simp at h2 ⊢
  omega

theorem readAttributes_consumed_witness :
    (declaredLengths 2 (twoAttributes.drop 2)).length = 2 ∧
    twoAttributes.length =
      [(9 : Byte)].length + (2 + ((declaredLengths 2 (twoAttributes.drop 2)).map
        fun L => 6 + L).sum) ∧
    [(9 : Byte)] = twoAttributes.drop (2 + ((declaredLengths 2 (twoAttributes.drop 2)).map
        fun L => 6 + L).sum) :=
  readAttributes_consumed samplePool twoAttributes (twoAttributes.drop 2) [9] 2
    [none, none, none, none] (by decide) (by decide)

/-! ## The tag table -/

theorem readUint8_cons (a : Byte) (rest : Stream) : readUint8 (a :: rest) = .ok a rest := rfl

theorem readBytes_take {size : Nat} {s : Stream} (h : size ≤ s.length) :
    readBytes size s = .ok (s.take size) (s.drop size) :=
  readBytes_of_le h

/-- C12: the bytes that follow a tag byte are decoded as the tag table says:
one big-endian `uint16` for tags 7, 8, 16, 19, 20; two for tags 9, 10, 11, 12,
17, 18; one big-endian `uint32` for tags 3 and 4; the high then the low
`uint32` for tags 5 and 6; a kind byte then a `uint16` for tag 15; a `uint16`
length `n` then `n` raw bytes for tag 1. The record has the variant of its
tag, and the loop stores it in the slot of the iteration. -/
theorem readConstant_table :
    (∀ (a b : Byte) (rest : Stream),
      readConstant 7 (a :: b :: rest) = .ok (.Class (a.val * 256 + b.val)) rest ∧
      readConstant 8 (a :: b :: rest) = .ok (.String (a.val * 256 + b.val)) rest ∧
      readConstant 16 (a :: b :: rest) = .ok (.MethodType (a.val * 256 + b.val)) rest ∧
      readConstant 19 (a :: b :: rest) = .ok (.Module (a.val * 256 + b.val)) rest ∧
      readConstant 20 (a :: b :: rest) = .ok (.Package (a.val * 256 + b.val)) rest) ∧
    (∀ (a b c d : Byte) (rest : Stream),
      readConstant 9 (a :: b :: c :: d :: rest) =
        .ok (.Fieldref (a.val * 256 + b.val) (c.val * 256 + d.val)) rest ∧
      readConstant 10 (a :: b :: c :: d :: rest) =
        .ok (.Methodref (a.val * 256 + b.val) (c.val * 256 + d.val)) rest ∧
      readConstant 11 (a :: b :: c :: d :: rest) =
        .ok (.InterfaceMethodref (a.val * 256 + b.val) (c.val * 256 + d.val)) rest ∧
      readConstant 12 (a :: b :: c :: d :: rest) =
        .ok (.NameAndType (a.val * 256 + b.val) (c.val * 256 + d.val)) rest ∧
      readConstant 17 (a :: b :: c :: d :: rest) =
        .ok (.Dynamic (a.val * 256 + b.val) (c.val * 256 + d.val)) rest ∧
      readConstant 18 (a :: b :: c :: d :: rest) =
        .ok (.InvokeDynamic (a.val * 256 + b.val) (c.val * 256 + d.val)) rest) ∧
    (∀ (a b c d : Byte) (rest : Stream),
      readConstant 3 (a :: b :: c :: d :: rest) =
        .ok (.Integer (((a.val * 256 + b.val) * 256 + c.val) * 256 + d.val)) rest ∧
      readConstant 4 (a :: b :: c :: d :: rest) =
        .ok (.Float (((a.val * 256 + b.val) * 256 + c.val) * 256 + d.val)) rest) ∧
    (∀ (a b c d e f g h : Byte) (rest : Stream),
      readConstant 5 (a :: b :: c :: d :: e :: f :: g :: h :: rest) =
        .ok (.Long (((a.val * 256 + b.val) * 256 + c.val) * 256 + d.val)
          (((e.val * 256 + f.val) * 256 + g.val) * 256 + h.val)) rest ∧
      readConstant 6 (a :: b :: c :: d :: e :: f :: g :: h :: rest) =
        .ok (.Double (((a.val * 256 + b.val) * 256 + c.val) * 256 + d.val)
          (((e.val * 256 + f.val) * 256 + g.val) * 256 + h.val)) rest) ∧
    (∀ (k a b : Byte) (rest : Stream),
      readConstant 15 (k :: a :: b :: rest) =
        .ok (.MethodHandle k.val (a.val * 256 + b.val)) rest) ∧
    (∀ (a b : Byte) (rest : Stream), a.val * 256 + b.val ≤ rest.length →
      readConstant 1 (a :: b :: rest) =
        .ok (.Utf8 (rest.take (a.val * 256 + b.val))) (rest.drop (a.val * 256 + b.val))) ∧
    (∀ (n fuel i : Nat) (cp : List (Option Constant)) (tag : Byte) (s1 s2 : Stream)
      (k : Constant), i < n → readConstant tag.val s1 = .ok k s2 →
      k.tag = tag.val ∧
      cpLoop n (fuel + 1) i cp (tag :: s1) =
        cpLoop n fuel ((slotAfter tag.val i + 1) % 65536) (cp.set i (some k)) s2) := by
  refine ⟨?_, ?_, ?_, ?_, ?_, ?_, ?_⟩
  · intro a b rest
    simp [readConstant, bind_apply, pure_apply, readUint16_cons]
  · intro a b c d rest
    simp [readConstant, bind_apply, pure_apply, readUint16_cons]
  · intro a b c d rest
    simp [readConstant, bind_apply, pure_apply, readUint32_cons]
  · intro a b c d e f g h rest
    simp [readConstant, bind_apply, pure_apply, readUint32_cons]
  · intro k a b rest
    simp [readConstant, bind_apply, pure_apply, readUint16_cons, readUint8_cons]
  · intro a b rest hle
    simp [readConstant, bind_apply, pure_apply, readUint16_cons, readBytes_take hle]
  · intro n fuel i cp tag s1 s2 k hi hk
    exact ⟨readConstant_tag hk, cpLoop_cons_ok n hi fuel cp hk⟩

theorem readConstant_table_witness :
    readConstant 1 [0, 2, 7, 8, 9] = .ok (.Utf8 [7, 8]) [9] ∧
    readConstant 1 [0, 0, 9] = .ok (.Utf8 []) [9] :=
  ⟨readConstant_table.2.2.2.2.2.1 0 2 [7, 8, 9] (by decide),
    readConstant_table.2.2.2.2.2.1 0 0 [9] (by decide)⟩

/-! ## The interfaces -/

theorem readUint16_value {s r : Stream} {v : Nat} (h : readUint16 s = .ok v r) :
    v = uint16At s 0 := by
  obtain ⟨bs, r1, h1, h2⟩ := bind_eq_ok h
  cases h2
  have hle := readBytes_ok_le h1
  rw [readBytes_of_le hle] at h1
  cases h1
  rfl

theorem uint16At_drop (s : Stream) (j k : Nat) : uint16At (s.drop j) k = uint16At s (j + k) := by
  simp [uint16At, List.drop_drop, Nat.add_comm]

theorem readInterfacesLoop_spec : ∀ (n : Nat) (c c1 : Classfile) (s r : Stream),
    readInterfacesLoop n c s = .ok c1 r →
    c1.Interfaces = c.Interfaces ++ (List.range n).map (fun i => uint16At s (2 * i)) ∧
    2 * n ≤ s.length ∧ r = s.drop (2 * n) := by
  intro n
  induction n with
  | zero =>
    intro c c1 s r h
    cases h
    simp
  | succ n ih =>
    intro c c1 s r h
    obtain ⟨v, s1, h1, h2⟩ := bind_eq_ok h
    obtain ⟨ih1, ih2, ih3⟩ := ih _ _ _ _ h2
    have e1 := readUint16_rest h1
    have l1 := readUint16_ok_le h1
    have hv := readUint16_value h1
    subst e1
    refine ⟨?_, ?_, ?_⟩
    · rw [ih1, List.range_succ_eq_map, List.map_cons, List.map_map]
      simp only [List.append_assoc, List.singleton_append, hv, Nat.mul_zero]
      congr 2
      apply List.map_congr_left
      intro i _
      simp only [Function.comp, uint16At_drop]
      congr 1
      omega
    · simp at ih2
      omega
    · rw [ih3, List.drop_drop]
      congr 1
      omega

/-- C14: when `readInterfaces` succeeds on a section that declares `n`
interfaces, it appends to `Interfaces` the `n` big-endian `uint16` values at
offsets `2 + 2*i` of the section, in stream order, and consumes exactly
`2 + 2*n` bytes; `Interfaces` being empty before the call, as it is in
`Parse`, it has exactly `n` elements afterwards. No index is checked against
the pool: the pool is not consulted. -/
theorem readInterfaces_spec (c c1 : Classfile) (s s0 r : Stream) (n : Nat)
    (hn : readUint16 s = .ok n s0) (h : readInterfaces c s = .ok c1 r) :
    c1.Interfaces = c.Interfaces ++ (List.range n).map (fun i => uint16At s (2 + 2 * i)) ∧
    (c.Interfaces = [] → c1.Interfaces.length = n ∧
      ∀ i, i < n → c1.Interfaces[i]? = some (uint16At s (2 + 2 * i))) ∧
    s.length = r.length + (2 + 2 * n) ∧ r = s.drop (2 + 2 * n) := by
  rw [readInterfaces, bind_ok hn] at h
  obtain ⟨h1, h2, h3⟩ := readInterfacesLoop_spec _ _ _ _ _ h
  have e0 := readUint16_rest hn
  have l0 := readUint16_ok_le hn
  subst e0
  have hI : c1.Interfaces =
      c.Interfaces ++ (List.range n).map (fun i => uint16At s (2 + 2 * i)) := by
    rw [h1]
    congr 1
    apply List.map_congr_left
    intro i _
    exact uint16At_drop s 2 (2 * i)
  have hr : r = s.drop (2 + 2 * n) := by
    rw [h3, List.drop_drop]
  refine ⟨hI, ?_, ?_, hr⟩
  · intro hc
    rw [hI, hc, List.nil_append]
    refine ⟨by simp, ?_⟩
    intro i hi
    simp [hi]
  · rw [hr]
    simp at h2 ⊢
    omega

theorem readInterfaces_spec_witness :
    ({ Classfile.empty with Interfaces := [258, 3] } : Classfile).Interfaces =
      Classfile.empty.Interfaces ++ (List.range 2).map (fun i => uint16At twoInterfaces (2 + 2 * i)) ∧
    twoInterfaces.length = [(9 : Byte)].length + (2 + 2 * 2) :=
  ⟨(readInterfaces_spec Classfile.empty { Classfile.empty with Interfaces := [258, 3] }
      twoInterfaces (twoInterfaces.drop 2) [9] 2 (by decide) (by decide)).1,
    (readInterfaces_spec Classfile.empty { Classfile.empty with Interfaces := [258, 3] }
      twoInterfaces (twoInterfaces.drop 2) [9] 2 (by decide) (by decide)).2.2.1⟩

/-! ## Fields and methods -/

theorem readFieldsLoop_succ (n : Nat) (c : Classfile) :
    readFieldsLoop (n + 1) c = readMember c.ConstantPool >>= fun f =>
      readFieldsLoop n { c with Fields := c.Fields ++ [f] } := by
  simp only [readFieldsLoop, readMember, bind_assoc_apply, pure_bind_apply]

theorem readMethodsLoop_succ (n : Nat) (c : Classfile) :
    readMethodsLoop (n + 1) c = readMember c.ConstantPool >>= fun f =>
      readMethodsLoop n { c with Methods := c.Methods ++ [f.toMethod] } := by
  simp only [readMethodsLoop, readMember, bind_assoc_apply, pure_bind_apply]
  rfl

/-- The two loops run in step on the same input. -/
theorem members_loop : ∀ (n : Nat) (c c' : Classfile) (s : Stream),
    c.ConstantPool = c'.ConstantPool →
    match readFieldsLoop n c s with
    | .ok c1 r => ∃ c2 fs, readMethodsLoop n c' s = .ok c2 r ∧ fs.length = n ∧
        c1.Fields = c.Fields ++ fs ∧ c2.Methods = c'.Methods ++ fs.map Field.toMethod
    | .err e r => readMethodsLoop n c' s = .err e r
    | .fuel => False := by
  intro n
  induction n with
  | zero =>
    intro c c' s _
    exact ⟨c', [], rfl, rfl, by simp, by simp⟩
  | succ n ih =>
    intro c c' s hp
    have hp' : readMember c'.ConstantPool = readMember c.ConstantPool := by rw [hp]
    rw [readFieldsLoop_succ, readMethodsLoop_succ, hp', bind_apply, bind_apply]
    cases hm : readMember c.ConstantPool s with
    | ok f r1 =>
      simp only
      have := ih { c with Fields := c.Fields ++ [f] }
        { c' with Methods := c'.Methods ++ [f.toMethod] } r1 hp
      cases hres : readFieldsLoop n { c with Fields := c.Fields ++ [f] } r1 with
      | ok c1 r =>
        rw [hres] at this
        obtain ⟨c2, fs, h1, h2, h3, h4⟩ := this
        exact ⟨c2, f :: fs, h1, by simp [h2], by simp [h3], by simp [h4]⟩
      | err e r =>
        rw [hres] at this
        exact this
      | fuel =>
        rw [hres] at this
        exact this
    | err e r1 => rfl
    | fuel =>
      have hs : Stable (readMember c.ConstantPool) :=
        Stable.bind stable_readUint16 fun _ => Stable.bind stable_readUint16 fun _ =>
          Stable.bind stable_readUint16 fun _ =>
            Stable.bind (stable_readAttributes _) fun _ => Stable.pure _
      exact absurd hm (hs.nofuel s)

theorem members_stage (c : Classfile) (s : Stream) :
    match readFields c s with
    | .ok c1 r => ∃ c2 fs n s0, readUint16 s = .ok n s0 ∧ readMethods c s = .ok c2 r ∧
        fs.length = n ∧ c1.Fields = c.Fields ++ fs ∧
        c2.Methods = c.Methods ++ fs.map Field.toMethod
    | .err e r => readMethods c s = .err e r
    | .fuel => False := by
  rw [readFields, readMethods, bind_apply, bind_apply]
  cases hn : readUint16 s with
  | ok n s0 =>
    simp only
    have := members_loop n c c s0 rfl
    cases hres : readFieldsLoop n c s0 with
    | ok c1 r =>
      rw [hres] at this
      obtain ⟨c2, fs, h1, h2, h3, h4⟩ := this
      exact ⟨c2, fs, n, s0, rfl, h1, h2, h3, h4⟩
    | err e r =>
      rw [hres] at this
      exact this
    | fuel =>
      rw [hres] at this
      exact this
  | err e r => rfl
  | fuel => exact absurd hn (stable_readUint16.nofuel s)

/-- C15: on the same input and pool `readFields` and `readMethods` fail
together, with the same error and the same bytes left unread, or succeed
together, leaving the same bytes unread; on success each appends as many
records as the count declares, and the records appended carry the same
access flags, name index, descriptor index and attribute list, in the same
order: each record is three big-endian `uint16` values, access flags, name
index and descriptor index, then an attribute list. -/
theorem readFields_readMethods (c : Classfile) (s : Stream) :
    (∀ e r, readFields c s = .err e r ↔ readMethods c s = .err e r) ∧
    (∀ r, (∃ c1, readFields c s = .ok c1 r) ↔ ∃ c2, readMethods c s = .ok c2 r) ∧
    (∀ c1 c2 r1 r2, readFields c s = .ok c1 r1 → readMethods c s = .ok c2 r2 →
      r1 = r2 ∧ ∃ fs n s0, readUint16 s = .ok n s0 ∧ fs.length = n ∧
        c1.Fields = c.Fields ++ fs ∧ c2.Methods = c.Methods ++ fs.map Field.toMethod) ∧
    (∀ (n : Nat) (a0 a1 b0 b1 d0 d1 : Byte) (rest r : Stream)
      (attrs : List (Option Attribute)),
      readAttributes c.ConstantPool rest = .ok attrs r →
      readFieldsLoop (n + 1) c (a0 :: a1 :: b0 :: b1 :: d0 :: d1 :: rest) =
        readFieldsLoop n { c with Fields := c.Fields ++
          [⟨a0.val * 256 + a1.val, b0.val * 256 + b1.val, d0.val * 256 + d1.val, attrs⟩] } r ∧
      readMethodsLoop (n + 1) c (a0 :: a1 :: b0 :: b1 :: d0 :: d1 :: rest) =
        readMethodsLoop n { c with Methods := c.Methods ++
          [⟨a0.val * 256 + a1.val, b0.val * 256 + b1.val, d0.val * 256 + d1.val, attrs⟩] } r) := by
  have key := members_stage c s
  refine ⟨?_, ?_, ?_, ?_⟩
  rotate_left 3
  · intro n a0 a1 b0 b1 d0 d1 rest r attrs h
    constructor
    · simp only [readFieldsLoop, bind_apply, readUint16_cons, h]
    · simp only [readMethodsLoop, bind_apply, readUint16_cons, h]
  · intro e r
    cases hf : readFields c s with
    | ok c1 r1 =>
      rw [hf] at key
      obtain ⟨c2, fs, n, s0, _, h1, _⟩ := key
      rw [h1]
      simp
    | err e1 r1 =>
      rw [hf] at key
      rw [key]
    | fuel =>
      rw [hf] at key
      exact key.elim
  · intro r
    cases hf : readFields c s with
    | ok c1 r1 =>
      rw [hf] at key
      obtain ⟨c2, fs, n, s0, _, h1, _⟩ := key
      rw [h1]
      simp
    | err e1 r1 =>
      rw [hf] at key
      rw [key]
    | fuel =>
      rw [hf] at key
      exact key.elim
  · intro c1 c2 r1 r2 hf hm
    rw [hf] at key
    obtain ⟨c2', fs, n, s0, hn, h1, h2, h3, h4⟩ := key
    rw [hm] at h1
    cases h1
    exact ⟨rfl, fs, n, s0, hn, h2, h3, h4⟩

theorem readFields_readMethods_witness :
    [(9 : Byte)] = [(9 : Byte)] ∧ ∃ fs n s0, readUint16 oneMember = .ok n s0 ∧ fs.length = n ∧
      ({ Classfile.empty with Fields := [⟨1, 2, 3, []⟩] } : Classfile).Fields =
        Classfile.empty.Fields ++ fs ∧
      ({ Classfile.empty with Methods := [⟨1, 2, 3, []⟩] } : Classfile).Methods =
        Classfile.empty.Methods ++ fs.map Field.toMethod :=
  (readFields_readMethods Classfile.empty oneMember).2.2.1
    { Classfile.empty with Fields := [⟨1, 2, 3, []⟩] }
    { Classfile.empty with Methods := [⟨1, 2, 3, []⟩] } [9] [9] (by decide) (by decide)

/-! ## The value of an attribute -/

/-- C16, as amended: when `readAttribute` decodes a record successfully, the
name index of the record resolves to a Utf8 entry of the pool and exactly the
declared number of payload bytes is consumed after the six header bytes, but
the Attribute returned is nil: it carries neither the name nor the payload. -/
theorem readAttribute_discards (c : ConstantPool) (s r : Stream) (a : Option Attribute)
    (h : readAttribute c s = .ok a r) :
    a = none ∧ ∃ idx len s1 s2 u, readUint16 s = .ok idx s1 ∧ readUint32 s1 = .ok len s2 ∧
      c.LookupUtf8 idx = some u ∧ len ≤ s2.length ∧ r = s2.drop len :=
  readAttribute_ok h

theorem readAttribute_discards_witness :
    (none : Option Attribute) = none ∧ ∃ idx len s1 s2 u, readUint16 oneRecord = .ok idx s1 ∧
      readUint32 s1 = .ok len s2 ∧ samplePool.LookupUtf8 idx = some u ∧ len ≤ s2.length ∧
      ([] : Stream) = s2.drop len :=
  readAttribute_discards samplePool oneRecord [] none (by decide)

/-- C16 fails as stated: on a record whose name index 1 resolves to the Utf8
entry "Test" and whose payload is the bytes 7, 7, `readAttribute` succeeds and
returns the nil Attribute, not one that carries that name and payload. -/
theorem readAttribute_returns_nil :
    samplePool.LookupUtf8 1 = some [84, 101, 115, 116] ∧
    readAttribute samplePool oneRecord = .ok none [] ∧
    readAttribute samplePool oneRecord ≠ .ok (some ⟨[84, 101, 115, 116], [7, 7]⟩) [] := by
  decide

/-! ## Termination -/

theorem readFieldsLoop_length : ∀ (n : Nat) (c c1 : Classfile) (s r : Stream),
    readFieldsLoop n c s = .ok c1 r → c1.Fields.length = c.Fields.length + n := by
  intro n
  induction n with
  | zero =>
    intro c c1 s r h
    cases h
    rfl
  | succ n ih =>
    intro c c1 s r h
    obtain ⟨_, _, _, h⟩ := bind_eq_ok h
    obtain ⟨_, _, _, h⟩ := bind_eq_ok h
    obtain ⟨_, _, _, h⟩ := bind_eq_ok h
    obtain ⟨_, _, _, h⟩ := bind_eq_ok h
    rw [ih _ _ _ _ h]
    simp
    omega

theorem readMethodsLoop_length : ∀ (n : Nat) (c c1 : Classfile) (s r : Stream),
    readMethodsLoop n c s = .ok c1 r → c1.Methods.length = c.Methods.length + n := by
  intro n
  induction n with
  | zero =>
    intro c c1 s r h
    cases h
    rfl
  | succ n ih =>
    intro c c1 s r h
    obtain ⟨_, _, _, h⟩ := bind_eq_ok h
    obtain ⟨_, _, _, h⟩ := bind_eq_ok h
    obtain ⟨_, _, _, h⟩ := bind_eq_ok h
    obtain ⟨_, _, _, h⟩ := bind_eq_ok h
    rw [ih _ _ _ _ h]
    simp
    omega

/-- One iteration of the pool loop returns, or goes on with fewer bytes. -/
theorem cpLoop_progress (n fuel i : Nat) (cp : List (Option Constant)) (s : Stream) :
    (∃ a r, cpLoop n (fuel + 1) i cp s = .ok a r) ∨
    (∃ e r, cpLoop n (fuel + 1) i cp s = .err e r) ∨
    ∃ i1 cp1 s1, s1.length < s.length ∧
      cpLoop n (fuel + 1) i cp s = cpLoop n fuel i1 cp1 s1 := by
  rcases cpLoop_cases n fuel i cp s with ⟨_, h1⟩ | ⟨_, _, h1⟩ | ⟨_, b, s1, e, s2, _, _, h1⟩ |
    ⟨_, b, s1, k, s2, hs, hk, h1⟩
  · exact Or.inl ⟨_, _, h1⟩
  · exact Or.inl ⟨_, _, h1⟩
  · exact Or.inr (Or.inl ⟨_, _, h1⟩)
  · refine Or.inr (Or.inr ⟨_, _, s2, ?_, h1⟩)
    have := ((stable_readConstant b.val).suffix s1 k s2 hk).length_le
    subst hs
    simp
    omega

/-- C17: `Parse` ends on every input with a result or an error, never with
its loop budget exhausted. Every iteration of the constant-pool loop returns
or goes on with strictly fewer unread bytes, so any budget above the number of
unread bytes gives the same outcome; this holds as well when the slot index
wraps from 65534 to 0 after a Long or Double with a declared count of 0. The
loops over interfaces, fields, methods and attributes run once per declared
element: on success they have appended exactly the declared count. -/
theorem Parse_terminates :
    (∀ s, (∃ c r, Parse s = .ok c r) ∨ ∃ e r, Parse s = .err e r) ∧
    (∀ (n fuel i : Nat) (cp : List (Option Constant)) (s : Stream),
      (∃ a r, cpLoop n (fuel + 1) i cp s = .ok a r) ∨
      (∃ e r, cpLoop n (fuel + 1) i cp s = .err e r) ∨
      ∃ i1 cp1 s1, s1.length < s.length ∧
        cpLoop n (fuel + 1) i cp s = cpLoop n fuel i1 cp1 s1) ∧
    (∀ (n fuel i : Nat) (cp : List (Option Constant)) (s : Stream), s.length < fuel →
      cpLoop n fuel i cp s ≠ .fuel ∧
      cpLoop n fuel i cp s = cpLoop n (s.length + 1) i cp s) ∧
    (∀ (fuel : Nat) (cp : List (Option Constant)) (a b c d e f g h : Byte) (rest : Stream),
      cpLoop ((0 + 65535) % 65536) (fuel + 1) 65534 cp
          (5 :: a :: b :: c :: d :: e :: f :: g :: h :: rest) =
        cpLoop 65535 fuel 0
          (cp.set 65534 (some (.Long (((a.val * 256 + b.val) * 256 + c.val) * 256 + d.val)
            (((e.val * 256 + f.val) * 256 + g.val) * 256 + h.val)))) rest) ∧
    (∀ (c c1 : Classfile) (s s0 r : Stream) (n : Nat), readUint16 s = .ok n s0 →
      (readInterfaces c s = .ok c1 r → c1.Interfaces.length = c.Interfaces.length + n) ∧
      (readFields c s = .ok c1 r → c1.Fields.length = c.Fields.length + n) ∧
      (readMethods c s = .ok c1 r → c1.Methods.length = c.Methods.length + n)) ∧
    (∀ (cp : ConstantPool) (s s0 r : Stream) (n : Nat) (as : List (Option Attribute)),
      readUint16 s = .ok n s0 → readAttributes cp s = .ok as r →
      as.length = (List.replicate n (none : Option Attribute)).length + n) := by
  refine ⟨?_, cpLoop_progress, ?_, ?_, ?_, ?_⟩
  · intro s
    cases hp : Parse s with
    | ok c r => exact Or.inl ⟨c, r, rfl⟩
    | err e r => exact Or.inr ⟨e, r, rfl⟩
    | fuel => exact absurd hp (stable_Parse.nofuel s)
  · intro n fuel i cp s h
    exact ⟨cpLoop_nofuel n fuel i cp s h, cpLoop_fuel_eq n i cp s h⟩
  · intro fuel cp a b c d e f g h rest
    have hk : readConstant ((5 : Byte).val) (a :: b :: c :: d :: e :: f :: g :: h :: rest) =
        .ok (.Long (((a.val * 256 + b.val) * 256 + c.val) * 256 + d.val)
          (((e.val * 256 + f.val) * 256 + g.val) * 256 + h.val)) rest := by
      show readConstant 5 _ = _
      simp [readConstant, bind_apply, pure_apply, readUint32_cons]
    exact cpLoop_cons_ok 65535 (by decide) fuel cp hk
  · intro c c1 s s0 r n hn
    refine ⟨?_, ?_, ?_⟩
    · intro h
      rw [readInterfaces, bind_ok hn] at h
      rw [(readInterfacesLoop_spec _ _ _ _ _ h).1]
      simp
    · intro h
      rw [readFields, bind_ok hn] at h
      exact readFieldsLoop_length _ _ _ _ _ h
    · intro h
      rw [readMethods, bind_ok hn] at h
      exact readMethodsLoop_length _ _ _ _ _ h
  · intro cp s s0 r n as hn h
    rw [readAttributes, bind_ok hn] at h
    exact readAttributesLoop_length cp _ _ _ _ _ h

theorem Parse_terminates_witness :
    (cpLoop 2 3 0 [none, none] [7, 0] ≠ .fuel ∧
      cpLoop 2 3 0 [none, none] [7, 0] = cpLoop 2 ([(7 : Byte), 0].length + 1) 0 [none, none] [7, 0]) ∧
    ({ Classfile.empty with Interfaces := [258, 3] } : Classfile).Interfaces.length =
      Classfile.empty.Interfaces.length + 2 :=
  ⟨Parse_terminates.2.2.1 2 3 0 [none, none] [7, 0] (by decide),
    (Parse_terminates.2.2.2.2.1 Classfile.empty { Classfile.empty with Interfaces := [258, 3] }
      twoInterfaces (twoInterfaces.drop 2) [9] 2 (by decide)).1 (by decide)⟩

/-! ## Stores into the pool -/

theorem cpStores_lt (n : Nat) : ∀ (fuel i : Nat) (s : Stream) (x : Nat),
    x ∈ cpStores n fuel i s → x < n := by
  intro fuel
  induction fuel with
  | zero => intro i s x h; simp [cpStores] at h
  | succ fuel ih =>
    intro i s x h
    unfold cpStores at h
    split_ifs at h with hi
    · cases s with
      | nil => simp [readUint8] at h
      | cons b s1 =>
        simp only [readUint8] at h
        split_ifs at h with hb
        · rw [List.mem_cons] at h
          rcases h with rfl | h
          · exact hi
          · cases hk : readConstant b.val s1 with
            | ok k s2 =>
              rw [hk] at h
              exact ih _ _ _ h
            | err e s2 =>
              rw [hk] at h
              simp at h
            | fuel =>
              rw [hk] at h
              simp at h
        · simp at h
    · simp at h

theorem supported_of_readConstant {tag : Nat} {s r : Stream} {k : Constant}
    (h : readConstant tag s = .ok k r) : tag ∈ supportedTags := by
  by_contra hn
  rw [readConstant_unsupported hn] at h
  cases h

/-- Every record the loop completes was stored by one of the stores. -/
theorem cpRecords_prefix_cpStores (n : Nat) : ∀ (fuel i : Nat) (s : Stream),
    (cpRecords n fuel i s).map Prod.fst <+: cpStores n fuel i s := by
  intro fuel
  induction fuel with
  | zero => intro i s; exact List.prefix_refl _
  | succ fuel ih =>
    intro i s
    by_cases hi : i < n
    · cases s with
      | nil => rw [cpRecords_nil]; exact List.nil_prefix
      | cons b s1 =>
        cases hk : readConstant b.val s1 with
        | ok k s2 =>
          rw [cpRecords_cons_ok n hi fuel hk]
          have hs : cpStores n (fuel + 1) i (b :: s1) =
              i :: cpStores n fuel ((slotAfter b.val i + 1) % 65536) s2 := by
            simp [cpStores, hi, readUint8, hk, supported_of_readConstant hk]
          rw [hs, List.map_cons]
          exact (List.prefix_cons_inj i).mpr (ih _ _)
        | err e s2 =>
          have : cpRecords n (fuel + 1) i (b :: s1) = [] := by
            simp [cpRecords, hi, readUint8, hk]
          rw [this]
          exact List.nil_prefix
        | fuel => exact absurd hk ((stable_readConstant b.val).nofuel s1)
    · rw [cpRecords_done n hi]
      exact List.nil_prefix

/-- C18: every store `cp.Constants[i] = c` of `readConstantPool` has its index
below the length of the pool, which is allocated with `count - 1` slots
(modulo 65536) and keeps that length: the store uses the index checked by the
loop condition, and the extra increment of cases 5 and 6 comes after it. This
holds for every count, 0 included, and wherever a Long or Double stands. -/
theorem stores_in_bounds :
    (∀ (s s1 : Stream) (count : Nat), readUint16 s = .ok count s1 →
      ∀ x, x ∈ readConstantPoolStores s →
        x < (List.replicate ((count + 65535) % 65536) (none : Option Constant)).length) ∧
    (∀ (n fuel i : Nat) (s : Stream) (x : Nat), x ∈ cpStores n fuel i s → x < n) ∧
    (∀ (n fuel i : Nat) (cp : List (Option Constant)) (s : Stream) (i1 : Nat)
      (cp1 : List (Option Constant)) (r : Stream),
      cpLoop n fuel i cp s = .ok (i1, cp1) r → cp1.length = cp.length) ∧
    (∀ (n fuel i : Nat) (s : Stream),
      (cpRecords n fuel i s).map Prod.fst <+: cpStores n fuel i s) := by
  refine ⟨?_, cpStores_lt, cpLoop_length, cpRecords_prefix_cpStores⟩
  intro s s1 count hcount x hx
  simp only [readConstantPoolStores, hcount] at hx
  rw [List.length_replicate]
  exact cpStores_lt _ _ _ _ _ hx

theorem stores_in_bounds_witness :
    (0 < (List.replicate ((2 + 65535) % 65536) (none : Option Constant)).length) ∧
    ([some (.Long 0 1)] : List (Option Constant)).length = [(none : Option Constant)].length :=
  ⟨stores_in_bounds.1 poolLongLast (poolLongLast.drop 2) 2 (by decide) 0 (by decide),
    stores_in_bounds.2.2.1 1 10 0 [none] (poolLongLast.drop 2) 2 [some (.Long 0 1)] []
      (by decide)⟩

/-! ## Trailing bytes -/

/-- C19: when `Parse` succeeds on `b`, it succeeds on `b` followed by any
bytes `t` with the same Classfile, and it consumes the same number of bytes:
the bytes `t` are left unread after what was left unread of `b`. -/
theorem Parse_trailing (b t r : Stream) (c : Classfile) (h : Parse b = .ok c r) :
    Parse (b ++ t) = .ok c (r ++ t) ∧
    (b ++ t).length - (r ++ t).length = b.length - r.length := by
  refine ⟨stable_Parse.ok b t c r h, ?_⟩
  simp
  omega

theorem Parse_trailing_witness :
    Parse (sampleClass ++ [1, 2, 3]) = .ok sampleClassfile ([] ++ [1, 2, 3]) ∧
    (sampleClass ++ [1, 2, 3]).length - (([] : Stream) ++ [1, 2, 3]).length =
      sampleClass.length - ([] : Stream).length :=
  Parse_trailing sampleClass [1, 2, 3] [] sampleClassfile (by decide)

/-! ## A count of zero -/

end ClassfileParser
